import Mathlib

/-!
Verification of the JSON comparison engine of `app.py`.

The core of the repository is a recursive structural diff between a
reference JSON document and a target JSON document, driven by a
`ComparisonConfig`.  This file gives a shallow embedding of that engine:

* `Json` models the Python values produced by `json.load` (with `ℚ` in
  place of Python numbers, exact where floats round);
* `pythonEq` models Python `==` on those values: `True`/`False` compare
  equal to `1`/`0` because `bool` is a subclass of `int` in Python, and
  dictionaries compare by key set, which the normalisation (sort keys,
  turn booleans into numbers) captures;
* `compare_values`, `compare_arrays`, `compare_json` and
  `calculate_accuracy` are translated line by line from `app.py`;
* paths are kept as their list of key segments (`PathKey`); the string
  path `f"{path}.{key}"` built by the source is
  `String.intercalate "." (path ++ [key])`, and keeping the segments
  explicit is what the spec's `Path` data model ("a dot-joined sequence
  of key segments") denotes;
* the external `jsonschema.validate` collaborator is a parameter
  `validator : Json → Json → Option String` (instance, schema ↦ error
  message on failure), as §6 of the spec treats it.
-/

/-- A Python value as produced by `json.load`: null, bool, number,
string, array, object (an insertion-ordered dict, modelled as an
association list). Numbers are `ℚ`, exact where Python floats round. -/
inductive Json where
  | null : Json
  | bool : Bool → Json
  | num : ℚ → Json
  | str : String → Json
  | arr : List Json → Json
  | obj : List (String × Json) → Json
deriving Repr

/-- A path into the reference tree, kept as its list of key segments;
the source's string form is `String.intercalate "."` of this list. -/
abbrev PathKey := List String

/-- A Python dict of JSON values (insertion-ordered association list). -/
abbrev JObj := List (String × Json)

/-- One of the four classification maps: path ↦ recorded value. -/
abbrev JMap := List (PathKey × Json)

mutual

/-- Structural equality test on `Json` terms, used through `pythonEq`
after normalisation (a recursion over the two nested list positions). -/
def jeq (u v : Json) : Bool :=
  match u, v with
  | Json.num x, Json.num y => x == y
  | Json.str x, Json.str y => x == y
  | Json.bool x, Json.bool y => x == y
  | Json.null, Json.null => true
  | Json.arr xs2, Json.arr ys2 => jeqList xs2 ys2
  | Json.obj ps, Json.obj qs => jeqObj ps qs
  | _, _ => false

/-- Elementwise `jeq` on two lists of values. -/
def jeqList (us vs : List Json) : Bool :=
  match us, vs with
  | [], [] => true
  | u :: more_u, v :: more_v => jeq u v && jeqList more_u more_v
  | _, _ => false

/-- Entrywise `jeq` on two association lists (keys and values both). -/
def jeqObj (ps qs : List (String × Json)) : Bool :=
  match ps, qs with
  | [], [] => true
  | (ku, u) :: more_p, (kv, v) :: more_q =>
    ku == kv && jeq u v && jeqObj more_p more_q
  | _, _ => false

end

/-- Python's numeric view of a value: `isinstance(v, (int, float))` is
true for numbers and also for booleans (`bool` subclasses `int`), with
`True = 1` and `False = 0`. Returns the numeric value when numeric. -/
def Json.toNumber : Json → Option ℚ
  | .bool b => some (if b then 1 else 0)
  | .num q => some q
  | _ => none

/-- Python truthiness of a JSON value (`if config.schema:`): `None`,
`False`, `0`, `""`, `[]`, `{}` are falsy, everything else truthy. -/
def jsonTruthy : Json → Bool
  | .null => false
  | .bool b => b
  | .num q => decide (q ≠ 0)
  | .str s => decide (s ≠ "")
  | .arr xs => !xs.isEmpty
  | .obj kvs => !kvs.isEmpty

/-- Insert a key/value pair into a key-sorted association list. -/
def insertSorted (p : String × Json) : List (String × Json) → List (String × Json)
  | [] => [p]
  | q :: rest => if p.1 < q.1 then p :: q :: rest else q :: insertSorted p rest

/-- Sort an association list by key (insertion sort). -/
def sortByKey : List (String × Json) → List (String × Json)
  | [] => []
  | p :: rest => insertSorted p (sortByKey rest)

/-- Drop later duplicates of a key, keeping the first occurrence (the
one `List.lookup` sees; a Python dict never holds a duplicate key). -/
def dedupKeys : List (String × Json) → List (String × Json)
  | [] => []
  | p :: rest => p :: dedupKeys (rest.filter (fun q => q.1 ≠ p.1))
termination_by l => l.length
decreasing_by
  simp only [List.length_cons]
  exact Nat.lt_succ_of_le (List.length_filter_le _ _)

mutual

/-- Canonical form under Python `==`: booleans become the numbers `1`/`0`
(as `True == 1` in Python), and object keys are deduplicated and sorted
(as dict equality ignores insertion order). Two values are Python-equal
iff their normal forms are structurally equal. -/
def normalizeJson (v : Json) : Json :=
  match v with
  | Json.bool flag => Json.num (if flag then 1 else 0)
  | Json.arr elems => Json.arr (normalizeList elems)
  | Json.obj fields => Json.obj (sortByKey (dedupKeys (normalizeObj fields)))
  | scalar => scalar

/-- `normalizeJson` applied across a list of values. -/
def normalizeList (elems : List Json) : List Json :=
  match elems with
  | [] => []
  | e :: more => normalizeJson e :: normalizeList more

/-- `normalizeJson` applied across the values of an association list. -/
def normalizeObj (fields : List (String × Json)) : List (String × Json) :=
  match fields with
  | [] => []
  | entry :: more => (entry.1, normalizeJson entry.2) :: normalizeObj more

end

/-- Python `==` between two JSON-loaded values: compare canonical forms. -/
def pythonEq (a b : Json) : Bool := jeq (normalizeJson a) (normalizeJson b)

/-- A value held in `config.custom_rules`: either a plain JSON value
(e.g. the string `"ignore"`) or a Python callable (a predicate taking
the reference value and `target.get(key)`). -/
inductive Rule where
  | jval : Json → Rule
  | fn : (Json → Json → Bool) → Rule

/-- The comparison configuration of `app.py` (`ComparisonConfig`). -/
structure ComparisonConfig where
  ignore_order : Bool
  case_insensitive : Bool
  numeric_tolerance : ℚ
  ignore_keys : List String
  custom_rules : List (PathKey × Rule)
  schema : Option Json

/-- `ComparisonConfig.__init__`: stores every argument unchanged, with
`None` (here `none`) for `ignore_keys`/`custom_rules` coalesced to the
empty collection by `or`. The source performs no validation at all, so
the embedding is a total function into `ComparisonConfig`. -/
def ComparisonConfig.init (ignore_order case_insensitive : Bool)
    (numeric_tolerance : ℚ) (ignore_keys : Option (List String))
    (custom_rules : Option (List (PathKey × Rule)))
    (schema : Option Json) : ComparisonConfig :=
  { ignore_order := ignore_order
    case_insensitive := case_insensitive
    numeric_tolerance := numeric_tolerance
    ignore_keys := ignore_keys.getD []
    custom_rules := custom_rules.getD []
    schema := schema }

/-- The all-defaults configuration (`ComparisonConfig()`). -/
def default_config : ComparisonConfig :=
  ComparisonConfig.init false false 0 none none none

/-- `compare_values` of `app.py`: numeric operands (including booleans,
which Python's `isinstance(·, (int, float))` admits) compare within
`numeric_tolerance`; otherwise case-insensitive string comparison when
enabled; otherwise Python `==`. -/
def compare_values (val1 val2 : Json) (config : ComparisonConfig) : Bool :=
  match val1.toNumber, val2.toNumber with
  | some a, some b => decide (|a - b| ≤ config.numeric_tolerance)
  | _, _ =>
    match val1, val2 with
    | .str s1, .str s2 =>
      if config.case_insensitive then s1.toLower == s2.toLower else s1 == s2
    | _, _ => pythonEq val1 val2

/-- The inner scan of the order-ignoring loop of `compare_arrays`: find
the first element of the working copy equivalent to `item1`, and return
the working copy with that element popped (`none` when no match). -/
def removeFirstMatch (config : ComparisonConfig) (item1 : Json) :
    List Json → Option (List Json)
  | [] => none
  | item2 :: rest =>
    if compare_values item1 item2 config then some rest
    else (removeFirstMatch config item1 rest).map (item2 :: ·)

/-- The outer loop of the order-ignoring branch of `compare_arrays`:
consume `arr1` in order against a working copy of `arr2`, failing the
whole comparison the first time no match is found. -/
def unorderedLoop (config : ComparisonConfig) :
    List Json → List Json → Bool
  | [], _ => true
  | item1 :: rest1, working =>
    match removeFirstMatch config item1 working with
    | none => false
    | some working' => unorderedLoop config rest1 working'

/-- `compare_arrays` of `app.py`: a length mismatch is an immediate
failure; ordered mode compares positionally; unordered mode runs the
greedy first-match loop on a working copy of `arr2`. -/
def compare_arrays (arr1 arr2 : List Json) (config : ComparisonConfig) : Bool :=
  if arr1.length ≠ arr2.length then false
  else if !config.ignore_order then
    (List.zip arr1 arr2).all (fun p => compare_values p.1 p.2 config)
  else unorderedLoop config arr1 arr2

/-- The `differences` entry recorded by `compare_json`:
`{"reference": ref, "target": tgt}`. -/
def diffEntry (ref tgt : Json) : Json :=
  Json.obj [("reference", ref), ("target", tgt)]

/-- The schema gate at the head of `compare_json`
(`if config.schema and path == "":`): when the schema is truthy and the
call is the root call, validate the reference and then the target, and
return the first validation error's message. `validator` models the
external `jsonschema.validate` collaborator (instance, schema ↦ some
message on `ValidationError`). -/
def schemaGate (validator : Json → Json → Option String)
    (config : ComparisonConfig) (reference target : JObj)
    (path : PathKey) : Option String :=
  match config.schema with
  | none => none
  | some s =>
    if jsonTruthy s && decide (path = []) then
      match validator (Json.obj reference) s with
      | some msg => some msg
      | none => validator (Json.obj target) s
    else none

/-- The first loop of `compare_json`: every key of `target` that is
neither a key of `reference` nor in `config.ignore_keys` is recorded
under `additional[path.key]`. -/
def additionalPass (reference : JObj) (config : ComparisonConfig)
    (path : PathKey) : JObj → JMap
  | [] => []
  | (key, v) :: rest =>
    if (List.lookup key reference).isNone && !config.ignore_keys.contains key then
      (path ++ [key], v) :: additionalPass reference config path rest
    else additionalPass reference config path rest

mutual

/-- `compare_json` of `app.py`: the schema gate, then the
additional-key pass over `target`, then the reference-driven pass.  The
four components are `(missing, common, differences, additional)` in the
source's tuple order; map entries are accumulated in iteration order
(list append models the dict inserts/updates, which never collide since
a Python dict's keys are unique and distinct keys build distinct
paths). -/
def compare_json (validator : Json → Json → Option String)
    (config : ComparisonConfig) (reference target : JObj)
    (path : PathKey) : JMap × JMap × JMap × JMap :=
  match schemaGate validator config reference target path with
  | some msg => ([], [], [], [(["schema_error"], Json.str msg)])
  | none =>
    let r := refPass validator config target path reference
    (r.1, r.2.1, r.2.2.1, additionalPass reference config path target ++ r.2.2.2)

/-- The reference-driven loop of `compare_json` (`for key in reference:`):
skip ignored keys, consult the custom rule for the current path, and
otherwise classify the key via `refStep`. -/
def refPass (validator : Json → Json → Option String)
    (config : ComparisonConfig) (target : JObj) (path : PathKey) :
    JObj → JMap × JMap × JMap × JMap
  | [] => ([], [], [], [])
  | (key, ref_val) :: rest =>
    let tail := refPass validator config target path rest
    if config.ignore_keys.contains key then tail
    else
      let current_path := path ++ [key]
      match List.lookup current_path config.custom_rules with
      | some (Rule.jval j) =>
        if pythonEq j (Json.str "ignore") then tail
        else
          let r := refStep validator config target path key ref_val
          (r.1 ++ tail.1, r.2.1 ++ tail.2.1, r.2.2.1 ++ tail.2.2.1, r.2.2.2 ++ tail.2.2.2)
      | some (Rule.fn f) =>
        let tgt_val := (List.lookup key target).getD Json.null
        if f ref_val tgt_val then tail
        else (tail.1, tail.2.1, (current_path, diffEntry ref_val tgt_val) :: tail.2.2.1, tail.2.2.2)
      | none =>
        let r := refStep validator config target path key ref_val
        (r.1 ++ tail.1, r.2.1 ++ tail.2.1, r.2.2.1 ++ tail.2.2.1, r.2.2.2 ++ tail.2.2.2)

/-- The per-key default classification of `compare_json`: missing key,
object/object recursion, array/array comparison, or scalar/mixed value
comparison. -/
def refStep (validator : Json → Json → Option String)
    (config : ComparisonConfig) (target : JObj) (path : PathKey)
    (key : String) (ref_val : Json) : JMap × JMap × JMap × JMap :=
  let current_path := path ++ [key]
  match List.lookup key target with
  | none => ([(current_path, ref_val)], [], [], [])
  | some tgt_val =>
    match ref_val, tgt_val with
    | Json.obj rkvs, Json.obj tkvs =>
      compare_json validator config rkvs tkvs current_path
    | Json.arr r1, Json.arr t1 =>
      if compare_arrays r1 t1 config then ([], [(current_path, ref_val)], [], [])
      else ([], [], [(current_path, diffEntry ref_val tgt_val)], [])
    | rv, tv =>
      if compare_values rv tv config then ([], [(current_path, rv)], [], [])
      else ([], [], [(current_path, diffEntry rv tv)], [])

end

/-- Round a rational to 2 decimal places, as `round(x, 2)` does on the
exact value (Python rounds the nearest float; on the values the claims
exercise the two agree). -/
def roundTo2 (x : ℚ) : ℚ := (round (x * 100) : ℤ) / 100

/-- `calculate_accuracy` of `app.py`, returning
`(overall_accuracy, key_presence_accuracy, value_accuracy)`. -/
def calculate_accuracy (missing common differences additional : JMap) :
    ℚ × ℚ × ℚ :=
  let total_keys := missing.length + common.length + differences.length + additional.length
  if total_keys = 0 then (0, 0, 0)
  else
    let total_present_keys := common.length + differences.length
    let key_presence_accuracy : ℚ :=
      if total_present_keys + missing.length > 0 then
        ((total_present_keys : ℚ) / ((total_present_keys : ℚ) + (missing.length : ℚ))) * 100
      else 0
    let value_accuracy : ℚ :=
      if total_present_keys > 0 then
        ((common.length : ℚ) / ((common.length : ℚ) + (differences.length : ℚ))) * 100
      else 0
    let overall_accuracy : ℚ := ((common.length : ℚ) / (total_keys : ℚ)) * 100
    (roundTo2 overall_accuracy, roundTo2 key_presence_accuracy, roundTo2 value_accuracy)

mutual

/-- Well-formedness of a value as a Python dict tree: along the object
spine every key list is duplicate-free (a Python dict cannot hold a key
twice). -/
def wfKeys (v : Json) : Bool :=
  match v with
  | Json.obj fields => decide (fields.map Prod.fst).Nodup && wfObjVals fields
  | _ => true

/-- `wfKeys` across the values of an association list. -/
def wfObjVals (fields : List (String × Json)) : Bool :=
  match fields with
  | [] => true
  | entry :: more => wfKeys entry.2 && wfObjVals more

end

/-- The leaf paths of a document below a starting path: the path of
every non-object value, objects being recursed into (this is exactly
the set of paths the reference-driven walk can record for a key that is
present in both documents). -/
def leafPaths (path : PathKey) : JObj → JMap
  | [] => []
  | (k, Json.obj kvs) :: rest => leafPaths (path ++ [k]) kvs ++ leafPaths path rest
  | (k, v) :: rest => (path ++ [k], v) :: leafPaths path rest

/-- Index of the first element of the working copy equivalent (under
`compare_values`) to `a`; the position the spec's greedy matching says
to remove. -/
def firstMatchIdx (config : ComparisonConfig) (a : Json) : List Json → Option ℕ
  | [] => none
  | w :: ws => if compare_values a w config then some 0
               else (firstMatchIdx config a ws).map (· + 1)

/-- The greedy one-to-one matching the spec describes for unordered
array comparison: for each element of the first sequence in order, find
the first remaining equivalent element of the working copy and remove
it (by index); fail the whole comparison the first time no match
exists. Stated from the spec's words, to be compared with the source's
`compare_arrays`. -/
def greedyMatch (config : ComparisonConfig) :
    List Json → List Json → Bool
  | [], _ => true
  | a :: rest, working =>
    match firstMatchIdx config a working with
    | none => false
    | some i => greedyMatch config rest (working.eraseIdx i)

/-- The paths (map keys) of a classification map. -/
def pathsOf (m : JMap) : List PathKey := m.map Prod.fst

/-- Concatenation of the paths of all four classification maps. -/
def allPaths (r : JMap × JMap × JMap × JMap) : List PathKey :=
  pathsOf r.1 ++ pathsOf r.2.1 ++ pathsOf r.2.2.1 ++ pathsOf r.2.2.2

mutual

/-- Structural equality is reflexive. -/
theorem jeq_refl : ∀ a : Json, jeq a a = true
  | .null => rfl
  | .bool b => by simp [jeq]
  | .num q => by simp [jeq]
  | .str s => by simp [jeq]
  | .arr xs => by simp [jeq, jeqList_refl xs]
  | .obj kvs => by simp [jeq, jeqObj_refl kvs]

/-- Pointwise structural equality on lists is reflexive. -/
theorem jeqList_refl : ∀ xs : List Json, jeqList xs xs = true
  | [] => rfl
  | x :: xs => by simp [jeqList, jeq_refl x, jeqList_refl xs]

/-- Pointwise structural equality on association lists is reflexive. -/
theorem jeqObj_refl : ∀ kvs : List (String × Json), jeqObj kvs kvs = true
  | [] => rfl
  | (k, v) :: rest => by simp [jeqObj, jeq_refl v, jeqObj_refl rest]

end

/-- Python `==` is reflexive on JSON values. -/
theorem pythonEq_refl (a : Json) : pythonEq a a = true :=
  jeq_refl (normalizeJson a)

/-- A value is equivalent to itself whenever the tolerance is
non-negative (the numeric branch needs `|v − v| = 0 ≤ tolerance`). -/
theorem compare_values_refl (config : ComparisonConfig)
    (h : 0 ≤ config.numeric_tolerance) (v : Json) :
    compare_values v v config = true := by
  cases v with
  | null => simpa [compare_values, Json.toNumber] using pythonEq_refl .null
  | bool b => simp [compare_values, Json.toNumber, h]
  | num q => simp [compare_values, Json.toNumber, h]
  | str s =>
    by_cases hc : config.case_insensitive <;>
      simp [compare_values, Json.toNumber, hc]
  | arr xs => simpa [compare_values, Json.toNumber] using pythonEq_refl (.arr xs)
  | obj kvs => simpa [compare_values, Json.toNumber] using pythonEq_refl (.obj kvs)

/-- Positional self-comparison of an array succeeds for non-negative
tolerance. -/
theorem zipSelf_all_compare (config : ComparisonConfig)
    (h : 0 ≤ config.numeric_tolerance) :
    ∀ xs : List Json,
      (List.zip xs xs).all (fun p => compare_values p.1 p.2 config) = true
  | [] => rfl
  | x :: xs => by
    simp only [List.zip_cons_cons, List.all_cons,
      compare_values_refl config h x, zipSelf_all_compare config h xs,
      Bool.and_self]

/-- The greedy loop matches a list against itself for non-negative
tolerance: the head always consumes the head of the working copy. -/
theorem unorderedLoop_self (config : ComparisonConfig)
    (h : 0 ≤ config.numeric_tolerance) :
    ∀ xs : List Json, unorderedLoop config xs xs = true
  | [] => rfl
  | x :: xs => by
    simp [unorderedLoop, removeFirstMatch, compare_values_refl config h x,
      unorderedLoop_self config h xs]

/-- An array is equivalent to itself for non-negative tolerance, in
either order mode. -/
theorem compare_arrays_refl (config : ComparisonConfig)
    (h : 0 ≤ config.numeric_tolerance) (xs : List Json) :
    compare_arrays xs xs config = true := by
  by_cases hio : config.ignore_order <;>
    simp [compare_arrays, hio, zipSelf_all_compare config h xs,
      unorderedLoop_self config h xs]

/-- The source's pop-based inner scan computes precisely "erase at the
first matching index". -/
theorem removeFirstMatch_eq (config : ComparisonConfig) (a : Json) :
    ∀ ws : List Json,
      removeFirstMatch config a ws =
        (firstMatchIdx config a ws).map ws.eraseIdx
  | [] => rfl
  | w :: ws => by
    by_cases hw : compare_values a w config
    · simp [removeFirstMatch, firstMatchIdx, hw, List.eraseIdx]
    · simp only [removeFirstMatch, firstMatchIdx, hw, if_neg,
        Bool.false_eq_true, removeFirstMatch_eq config a ws]
      cases firstMatchIdx config a ws <;> simp [List.eraseIdx]

/-- The source's order-ignoring loop is the spec's greedy matching. -/
theorem unorderedLoop_eq_greedyMatch (config : ComparisonConfig) :
    ∀ arr1 working : List Json,
      unorderedLoop config arr1 working = greedyMatch config arr1 working
  | [], _ => rfl
  | a :: rest, working => by
    simp only [unorderedLoop, greedyMatch, removeFirstMatch_eq config a working]
    cases firstMatchIdx config a working with
    | none => rfl
    | some i => simp [unorderedLoop_eq_greedyMatch config rest]

/-- A validator (model of `jsonschema.validate`) that accepts every
instance. -/
def okValidator : Json → Json → Option String := fun _ _ => none

/-- A validator that rejects every instance with the message `"boom"`. -/
def failValidator : Json → Json → Option String := fun _ _ => some "boom"

/-- C2 (counterexample): constructing a `ComparisonConfig` with
`numeric_tolerance = -1` succeeds and stores `-1` — the constructor has
no error path at all (no `ConfigError` exists in the source), so the
negative value IS silently accepted, contrary to the claim. -/
theorem negative_tolerance_accepted_cex :
    (ComparisonConfig.init false false (-1) none none none).numeric_tolerance = -1 ∧
    ((ComparisonConfig.init false false (-1) none none none).numeric_tolerance < 0) := by
  constructor
  · rfl
  · norm_num [ComparisonConfig.init]

/-- C2 (amended): `ComparisonConfig.__init__` performs no validation:
every argument, including a negative `numeric_tolerance`, is stored
unchanged and construction always succeeds. -/
theorem config_init_stores_unvalidated (io ci : Bool) (t : ℚ)
    (ik : Option (List String)) (cr : Option (List (PathKey × Rule)))
    (s : Option Json) :
    (ComparisonConfig.init io ci t ik cr s).numeric_tolerance = t ∧
    (ComparisonConfig.init io ci t ik cr s).ignore_order = io ∧
    (ComparisonConfig.init io ci t ik cr s).case_insensitive = ci ∧
    (ComparisonConfig.init io ci t ik cr s).ignore_keys = ik.getD [] ∧
    (ComparisonConfig.init io ci t ik cr s).schema = s :=
  ⟨rfl, rfl, rfl, rfl, rfl⟩

/-- C3 (counterexample): `compare_values(1, True)` is `true` at
tolerance `0`: Python's `isinstance(True, (int, float))` holds because
`bool` subclasses `int`, so a number and a boolean go through the
numeric branch and `|1 - True| = 0 ≤ 0` — a number and a non-numeric
JSON value (a boolean) ARE equivalent, contrary to the claim. -/
theorem num_bool_equivalent_cex :
    compare_values (Json.num 1) (Json.bool true) default_config = true := by
  simp [compare_values, Json.toNumber, default_config, ComparisonConfig.init]

/-- C3 (amended): for every config and tolerance, a number is never
equivalent to null, a string, an array, or an object (in either order);
booleans, however, are treated as the numbers 1/0 by the numeric
branch, so a number and a boolean compare within the tolerance. -/
theorem num_vs_nonnumeric_never_equivalent (config : ComparisonConfig) (q : ℚ) :
    (compare_values (Json.num q) Json.null config = false) ∧
    (∀ s, compare_values (Json.num q) (Json.str s) config = false) ∧
    (∀ xs, compare_values (Json.num q) (Json.arr xs) config = false) ∧
    (∀ kvs, compare_values (Json.num q) (Json.obj kvs) config = false) ∧
    (compare_values Json.null (Json.num q) config = false) ∧
    (∀ s, compare_values (Json.str s) (Json.num q) config = false) ∧
    (∀ xs, compare_values (Json.arr xs) (Json.num q) config = false) ∧
    (∀ kvs, compare_values (Json.obj kvs) (Json.num q) config = false) ∧
    (∀ b, compare_values (Json.num q) (Json.bool b) config =
      decide (|q - (if b then 1 else 0)| ≤ config.numeric_tolerance)) := by
  refine ⟨rfl, fun s => rfl, fun xs => rfl, fun kvs => rfl,
    rfl, fun s => rfl, fun xs => rfl, fun kvs => rfl, fun b => rfl⟩

/-- C5: two numbers are equivalent iff they differ by at most the
numeric tolerance; `equivalent(5, 5.05)` holds at tolerance `0.1` and
fails at `0.01`; tolerance `0` is exact equality. -/
theorem numeric_tolerance_equivalence :
    (∀ (config : ComparisonConfig) (a b : ℚ),
      compare_values (Json.num a) (Json.num b) config = true ↔
        |a - b| ≤ config.numeric_tolerance) ∧
    (compare_values (Json.num 5) (Json.num 5.05)
      (ComparisonConfig.init false false 0.1 none none none) = true) ∧
    (compare_values (Json.num 5) (Json.num 5.05)
      (ComparisonConfig.init false false 0.01 none none none) = false) ∧
    (∀ (io ci : Bool) (ik : List String) (cr : List (PathKey × Rule))
       (s : Option Json) (a b : ℚ),
      compare_values (Json.num a) (Json.num b) ⟨io, ci, 0, ik, cr, s⟩ = true ↔
        a = b) := by
  refine ⟨fun config a b => ?_, ?_, ?_, fun io ci ik cr s a b => ?_⟩
  · simp [compare_values, Json.toNumber]
  · simp only [compare_values, Json.toNumber, ComparisonConfig.init,
      Option.getD, decide_eq_true_eq]
    norm_num [abs_le]
  · simp only [compare_values, Json.toNumber, ComparisonConfig.init,
      Option.getD, decide_eq_false_iff_not, not_le]
    norm_num [lt_abs]
  · simp [compare_values, Json.toNumber, abs_nonpos_iff, sub_eq_zero]

/-- C6: array equivalence fails immediately on a length mismatch, and
for equal lengths in order-ignoring mode it coincides with the greedy
first-match one-to-one matching of the spec. -/
theorem array_equivalence_greedy :
    (∀ (config : ComparisonConfig) (arr1 arr2 : List Json),
      arr1.length ≠ arr2.length → compare_arrays arr1 arr2 config = false) ∧
    (∀ (config : ComparisonConfig) (arr1 arr2 : List Json),
      config.ignore_order = true → arr1.length = arr2.length →
        compare_arrays arr1 arr2 config = greedyMatch config arr1 arr2) := by
  constructor
  · intro config arr1 arr2 h
    simp [compare_arrays, h]
  · intro config arr1 arr2 hio hlen
    simp [compare_arrays, hlen, hio, unorderedLoop_eq_greedyMatch]

/-- C6 (witness): the two parts of `array_equivalence_greedy` at
concrete inputs: a length-1 vs length-0 comparison is `false`, and an
unordered comparison of `[1,2]` against `[2,1]` equals the greedy
matching there. -/
theorem array_equivalence_greedy_witness :
    compare_arrays [Json.num 1] [] default_config = false ∧
    compare_arrays [Json.num 1, Json.num 2] [Json.num 2, Json.num 1]
      (ComparisonConfig.init true false 0 none none none) =
      greedyMatch (ComparisonConfig.init true false 0 none none none)
        [Json.num 1, Json.num 2] [Json.num 2, Json.num 1] :=
  ⟨array_equivalence_greedy.1 default_config [Json.num 1] [] (by decide),
   array_equivalence_greedy.2 (ComparisonConfig.init true false 0 none none none)
     [Json.num 1, Json.num 2] [Json.num 2, Json.num 1] rfl rfl⟩

/-- C9: the accuracy computation is a pure total function of the four
map sizes: everything is `0` when all four maps are empty, otherwise
the three ratios of the claim rounded to 2 decimals (with the stated
zero-denominator fallbacks); sizes `(1,2,1,0)` give `50.00`, `75.00`,
`66.67`. -/
theorem accuracy_metrics_spec :
    (∀ M C D A : JMap, M.length + C.length + D.length + A.length = 0 →
      calculate_accuracy M C D A = (0, 0, 0)) ∧
    (∀ M C D A : JMap, M.length + C.length + D.length + A.length ≠ 0 →
      calculate_accuracy M C D A =
        (roundTo2 (100 * (C.length : ℚ) /
            ((M.length : ℚ) + (C.length : ℚ) + (D.length : ℚ) + (A.length : ℚ))),
         roundTo2 (if (C.length : ℚ) + (D.length : ℚ) + (M.length : ℚ) ≠ 0 then
            100 * ((C.length : ℚ) + (D.length : ℚ)) /
              ((C.length : ℚ) + (D.length : ℚ) + (M.length : ℚ))
          else 0),
         roundTo2 (if (C.length : ℚ) + (D.length : ℚ) ≠ 0 then
            100 * (C.length : ℚ) / ((C.length : ℚ) + (D.length : ℚ))
          else 0))) ∧
    (∀ M C D A : JMap, M.length = 1 → C.length = 2 → D.length = 1 → A.length = 0 →
      calculate_accuracy M C D A = (50, 75, 66.67)) := by
  refine ⟨fun M C D A h => ?_, fun M C D A h => ?_, fun M C D A hM hC hD hA => ?_⟩
  · simp [calculate_accuracy, h]
  · simp only [calculate_accuracy, if_neg h]
    refine Prod.ext ?_ (Prod.ext ?_ ?_)
    · simp only []
      congr 1
      push_cast
      ring
    · simp only []
      by_cases hp : C.length + D.length + M.length = 0
      · have hC0 : C.length = 0 := by omega
        have hD0 : D.length = 0 := by omega
        have hM0 : M.length = 0 := by omega
        simp [hC0, hD0, hM0]
      · have hq : (C.length : ℚ) + (D.length : ℚ) + (M.length : ℚ) ≠ 0 := by
          push_cast [← Nat.cast_add]
          exact_mod_cast hp
        have hgt : C.length + D.length + M.length > 0 := Nat.pos_of_ne_zero hp
        simp only [hq, if_pos hgt, ne_eq, not_true_eq_false, if_neg, ite_not]
        congr 1
        push_cast
        ring
    · simp only []
      by_cases hp : C.length + D.length = 0
      · have hC0 : C.length = 0 := by omega
        have hD0 : D.length = 0 := by omega
        simp [hC0, hD0]
      · have hq : (C.length : ℚ) + (D.length : ℚ) ≠ 0 := by
          push_cast [← Nat.cast_add]
          exact_mod_cast hp
        have hgt : C.length + D.length > 0 := Nat.pos_of_ne_zero hp
        simp only [hq, if_pos hgt, ne_eq, not_true_eq_false, if_neg, ite_not]
        congr 1
        push_cast
        ring
  · simp [calculate_accuracy, hM, hC, hD, hA, roundTo2]
    norm_num [round_eq]

/-- C9 (witness): `accuracy_metrics_spec` at concrete maps — four empty
maps give all zeros, and sizes `(1,2,1,0)` give `(50, 75, 66.67)`. -/
theorem accuracy_metrics_spec_witness :
    calculate_accuracy [] [] [] [] = (0, 0, 0) ∧
    calculate_accuracy [(["m"], Json.null)]
      [(["c1"], Json.null), (["c2"], Json.null)] [(["d"], Json.null)] [] =
      (50, 75, 66.67) :=
  ⟨accuracy_metrics_spec.1 [] [] [] [] rfl,
   accuracy_metrics_spec.2.2 [(["m"], Json.null)]
     [(["c1"], Json.null), (["c2"], Json.null)] [(["d"], Json.null)] []
     rfl rfl rfl rfl⟩

/-- A truthy schema document for the concrete schema examples. -/
def sampleSchema : Json := Json.obj [("type", Json.str "object")]

/-- A configuration carrying `sampleSchema` and defaults otherwise. -/
def schemaConfig : ComparisonConfig :=
  ComparisonConfig.init false false 0 none none (some sampleSchema)

/-- C1 (counterexample): with a failing validator at the root, the
source returns `{}, {}, {}, {"schema_error": msg}` — in the tuple order
`(missing, common, differences, additional)` the error entry sits in
`additional`, and `differences` is empty, contrary to the claim. -/
theorem schema_error_lands_in_additional_cex :
    (compare_json failValidator schemaConfig [] [] []).2.2.1 = [] ∧
    (compare_json failValidator schemaConfig [] [] []).2.2.2 =
      [(["schema_error"], Json.str "boom")] := by
  constructor <;>
    simp [compare_json, schemaGate, schemaConfig, sampleSchema,
      ComparisonConfig.init, failValidator, jsonTruthy]

/-- C1 (amended): if the configured schema is set (truthy) and the
validator rejects the reference, or accepts the reference but rejects
the target, the root call returns immediately with `missing`, `common`
and `differences` empty and `additional` holding the single entry
`"schema_error" ↦ the validator's message`. -/
theorem schema_short_circuit (validator : Json → Json → Option String)
    (config : ComparisonConfig) (reference target : JObj) (s : Json)
    (msg : String) (hs : config.schema = some s)
    (htru : jsonTruthy s = true)
    (hfail : validator (Json.obj reference) s = some msg ∨
      (validator (Json.obj reference) s = none ∧
       validator (Json.obj target) s = some msg)) :
    compare_json validator config reference target [] =
      ([], [], [], [(["schema_error"], Json.str msg)]) := by
  have hg : schemaGate validator config reference target [] = some msg := by
    rcases hfail with h1 | ⟨h1, h2⟩ <;> simp [schemaGate, hs, htru, h1, *]
  simp [compare_json, hg]

/-- C1 (witness): `schema_short_circuit` at a concrete failing
validator and nonempty reference. -/
theorem schema_short_circuit_witness :
    compare_json failValidator schemaConfig [("a", Json.num 1)] [] [] =
      ([], [], [], [(["schema_error"], Json.str "boom")]) :=
  schema_short_circuit failValidator schemaConfig [("a", Json.num 1)] []
    sampleSchema "boom" rfl rfl (Or.inl rfl)

/-- The schema gate can only fire at the root call (`path == ""`). -/
theorem schemaGate_path_nil {validator : Json → Json → Option String}
    {config : ComparisonConfig} {reference target : JObj} {path : PathKey}
    {msg : String}
    (h : schemaGate validator config reference target path = some msg) :
    path = [] := by
  by_cases hp : path = []
  · exact hp
  · exfalso
    unfold schemaGate at h
    cases hs : config.schema with
    | none => simp [hs] at h
    | some s =>
      rw [hs] at h
      simp [hp] at h

/-- Every entry of the additional-key pass sits at `path ++ [k]` for a
target key `k` that is absent from the reference and not ignored. -/
theorem mem_additionalPass {reference : JObj} {config : ComparisonConfig}
    {path : PathKey} :
    ∀ (L : JObj) (p : PathKey),
      p ∈ pathsOf (additionalPass reference config path L) →
      ∃ k, p = path ++ [k] ∧ List.lookup k reference = none ∧
        config.ignore_keys.contains k = false := by
  intro L
  induction L with
  | nil => intro p hp; simp [additionalPass, pathsOf] at hp
  | cons kv rest ih =>
    obtain ⟨k, v⟩ := kv
    intro p hp
    rw [additionalPass] at hp
    by_cases h1 : ((List.lookup k reference).isNone &&
        !config.ignore_keys.contains k) = true
    · rw [if_pos h1] at hp
      obtain ⟨hn, hc⟩ := (Bool.and_eq_true _ _).mp h1
      rcases List.mem_cons.mp hp with hhead | htail
      · exact ⟨k, hhead, Option.isNone_iff_eq_none.mp hn, by
          simpa using hc⟩
      · exact ih p htail
    · rw [if_neg h1] at hp
      exact ih p hp

/-- The additional-key pass over a list of pairs whose keys all occur
in the reference records nothing. -/
theorem additionalPass_sub {reference : JObj} {config : ComparisonConfig}
    {path : PathKey} :
    ∀ L : JObj, (∀ kv ∈ L, (List.lookup kv.1 reference).isSome) →
      additionalPass reference config path L = [] := by
  intro L
  induction L with
  | nil => intro _; rfl
  | cons kv rest ih =>
    obtain ⟨k, v⟩ := kv
    intro h
    rw [additionalPass]
    have hk : (List.lookup k reference).isSome := h (k, v) (List.mem_cons_self _ _)
    have : (List.lookup k reference).isNone = false := by
      cases hl : List.lookup k reference with
      | none => rw [hl] at hk; simp at hk
      | some w => simp
    rw [this]
    simp only [Bool.false_and, if_neg (by simp : ¬(false = true))]
    exact ih (fun kv hkv => h kv (List.mem_cons_of_mem _ hkv))

/-- In an association list with duplicate-free keys, membership of a
pair determines the lookup result. -/
theorem lookup_of_mem_nodup :
    ∀ (L : JObj), (L.map Prod.fst).Nodup → ∀ {k : String} {v : Json},
      (k, v) ∈ L → List.lookup k L = some v := by
  intro L
  induction L with
  | nil => intro _ k v h; simp at h
  | cons kv rest ih =>
    obtain ⟨k', v'⟩ := kv
    intro hnd k v h
    rw [List.map_cons] at hnd
    have hnd1 : k' ∉ rest.map Prod.fst := (List.nodup_cons.mp hnd).1
    have hnd2 : (rest.map Prod.fst).Nodup := (List.nodup_cons.mp hnd).2
    rcases List.mem_cons.mp h with hhead | htail
    · injection hhead with h1 h2
      subst h1; subst h2
      simp [List.lookup_cons]
    · have hk : k ∈ rest.map Prod.fst :=
        List.mem_map.mpr ⟨(k, v), htail, rfl⟩
      have hne : (k == k') = false := by
        simp only [beq_eq_false_iff_ne, ne_eq]
        intro hkk
        exact hnd1 (hkk ▸ hk)
      rw [List.lookup_cons, hne]
      exact ih hnd2 htail

/-- A key that occurs in an association list has a successful lookup. -/
theorem lookup_isSome_of_mem_keys :
    ∀ (L : JObj) (k : String), k ∈ L.map Prod.fst →
      (List.lookup k L).isSome := by
  intro L
  induction L with
  | nil => intro k h; simp at h
  | cons kv rest ih =>
    obtain ⟨k', v'⟩ := kv
    intro k h
    rw [List.map_cons] at h
    by_cases hk : (k == k') = true
    · simp [List.lookup_cons, hk]
    · rw [List.lookup_cons, Bool.eq_false_iff.mpr hk]
      apply ih
      rcases List.mem_cons.mp h with h1 | h1
      · exact absurd (by simp [h1] : (k == k') = true) hk
      · exact h1

/-- Each value of a well-formed association list is well-formed. -/
theorem wfObjVals_mem :
    ∀ L : List (String × Json), wfObjVals L = true →
      ∀ kv ∈ L, wfKeys kv.2 = true := by
  intro L
  induction L with
  | nil => intro _ kv h; simp at h
  | cons kv' rest ih =>
    obtain ⟨k, v⟩ := kv'
    intro hwf kv h
    rw [wfObjVals] at hwf
    obtain ⟨h1, h2⟩ := Bool.and_eq_true_iff.mp hwf
    rcases List.mem_cons.mp h with hh | ht
    · rw [hh]; exact h1
    · exact ih h2 kv ht

/-- Shape analysis of one default classification step: it records the
reference value as missing at `path ++ [key]`, a single common entry, a
single differences entry, or recurses into `compare_json` on an
object/object pair at `path ++ [key]`. -/
theorem refStep_entry_cases (validator : Json → Json → Option String)
    (config : ComparisonConfig) (target : JObj) (path : PathKey)
    (key : String) (ref_val : Json) :
    refStep validator config target path key ref_val =
      ([(path ++ [key], ref_val)], [], [], []) ∨
    (∃ c, refStep validator config target path key ref_val =
      ([], [(path ++ [key], c)], [], [])) ∨
    (∃ d, refStep validator config target path key ref_val =
      ([], [], [(path ++ [key], d)], [])) ∨
    (∃ rkvs tkvs, ref_val = Json.obj rkvs ∧
      List.lookup key target = some (Json.obj tkvs) ∧
      refStep validator config target path key ref_val =
        compare_json validator config rkvs tkvs (path ++ [key])) := by
  cases hl : List.lookup key target with
  | none => exact Or.inl (by simp [refStep, hl])
  | some tv =>
    cases ref_val with
    | obj rkvs =>
      cases tv with
      | obj tkvs =>
        exact Or.inr (Or.inr (Or.inr ⟨rkvs, tkvs, rfl, rfl, by simp [refStep, hl]⟩))
      | null =>
        simp only [refStep, hl]
        split <;> first
          | exact Or.inr (Or.inl ⟨_, rfl⟩)
          | exact Or.inr (Or.inr (Or.inl ⟨_, rfl⟩))
      | bool b =>
        simp only [refStep, hl]
        split <;> first
          | exact Or.inr (Or.inl ⟨_, rfl⟩)
          | exact Or.inr (Or.inr (Or.inl ⟨_, rfl⟩))
      | num q =>
        simp only [refStep, hl]
        split <;> first
          | exact Or.inr (Or.inl ⟨_, rfl⟩)
          | exact Or.inr (Or.inr (Or.inl ⟨_, rfl⟩))
      | str s =>
        simp only [refStep, hl]
        split <;> first
          | exact Or.inr (Or.inl ⟨_, rfl⟩)
          | exact Or.inr (Or.inr (Or.inl ⟨_, rfl⟩))
      | arr t1 =>
        simp only [refStep, hl]
        split <;> first
          | exact Or.inr (Or.inl ⟨_, rfl⟩)
          | exact Or.inr (Or.inr (Or.inl ⟨_, rfl⟩))
    | null =>
      cases tv <;>
        (simp only [refStep, hl]
         split <;> first
           | exact Or.inr (Or.inl ⟨_, rfl⟩)
           | exact Or.inr (Or.inr (Or.inl ⟨_, rfl⟩)))
    | bool b =>
      cases tv <;>
        (simp only [refStep, hl]
         split <;> first
           | exact Or.inr (Or.inl ⟨_, rfl⟩)
           | exact Or.inr (Or.inr (Or.inl ⟨_, rfl⟩)))
    | num q =>
      cases tv <;>
        (simp only [refStep, hl]
         split <;> first
           | exact Or.inr (Or.inl ⟨_, rfl⟩)
           | exact Or.inr (Or.inr (Or.inl ⟨_, rfl⟩)))
    | str s =>
      cases tv <;>
        (simp only [refStep, hl]
         split <;> first
           | exact Or.inr (Or.inl ⟨_, rfl⟩)
           | exact Or.inr (Or.inr (Or.inl ⟨_, rfl⟩)))
    | arr r1 =>
      cases tv <;>
        (simp only [refStep, hl]
         split <;> first
           | exact Or.inr (Or.inl ⟨_, rfl⟩)
           | exact Or.inr (Or.inr (Or.inl ⟨_, rfl⟩)))

/-- Membership in the concatenated path list, componentwise. -/
theorem mem_allPaths {p : PathKey} {r : JMap × JMap × JMap × JMap} :
    p ∈ allPaths r ↔ p ∈ pathsOf r.1 ∨ p ∈ pathsOf r.2.1 ∨
      p ∈ pathsOf r.2.2.1 ∨ p ∈ pathsOf r.2.2.2 := by
  simp [allPaths, List.mem_append, or_assoc]

/-- Provenance of recorded paths: every path `compare_json` records
strictly extends the call's path argument; every path of the reference
pass extends it through one of the iterated keys; every path of
`refStep` extends `path ++ [key]`. -/
theorem paths_extend (validator : Json → Json → Option String)
    (config : ComparisonConfig) :
    (∀ (reference target : JObj) (path : PathKey),
      ∀ p ∈ allPaths (compare_json validator config reference target path),
        ∃ k t, p = path ++ k :: t) ∧
    (∀ (target : JObj) (path : PathKey) (L : JObj),
      ∀ p ∈ allPaths (refPass validator config target path L),
        ∃ k t, p = path ++ k :: t ∧ k ∈ L.map Prod.fst) ∧
    (∀ (target : JObj) (path : PathKey) (key : String) (ref_val : Json),
      ∀ p ∈ allPaths (refStep validator config target path key ref_val),
        ∃ t, p = path ++ key :: t) := by
  refine compare_json.mutual_induct validator config
    (fun reference target path =>
      ∀ p ∈ allPaths (compare_json validator config reference target path),
        ∃ k t, p = path ++ k :: t)
    (fun target path L =>
      ∀ p ∈ allPaths (refPass validator config target path L),
        ∃ k t, p = path ++ k :: t ∧ k ∈ L.map Prod.fst)
    (fun target path key ref_val =>
      ∀ p ∈ allPaths (refStep validator config target path key ref_val),
        ∃ t, p = path ++ key :: t)
    ?_ ?_ ?_ ?_ ?_ ?_ ?_ ?_ ?_ ?_ ?_ ?_ ?_ ?_ ?_
  -- case 1: schema gate fires
  · intro reference target path msg hg p hp
    have hnil : path = [] := schemaGate_path_nil hg
    simp only [compare_json, hg] at hp
    simp only [mem_allPaths, pathsOf, List.map_nil, List.map_cons,
      List.not_mem_nil, List.mem_singleton, false_or] at hp
    exact ⟨"schema_error", [], by simp [hp, hnil]⟩
  -- case 2: gate passes, combine additional pass and reference pass
  · intro reference target path hg ih p hp
    simp only [compare_json, hg] at hp
    rcases mem_allPaths.mp hp with h1 | h2 | h3 | h4
    · obtain ⟨k, t, heq, _⟩ := ih p (mem_allPaths.mpr (Or.inl h1))
      exact ⟨k, t, heq⟩
    · obtain ⟨k, t, heq, _⟩ := ih p (mem_allPaths.mpr (Or.inr (Or.inl h2)))
      exact ⟨k, t, heq⟩
    · obtain ⟨k, t, heq, _⟩ := ih p (mem_allPaths.mpr (Or.inr (Or.inr (Or.inl h3))))
      exact ⟨k, t, heq⟩
    · simp only [pathsOf, List.map_append, List.mem_append] at h4
      rcases h4 with h5 | h6
      · obtain ⟨k, heq, _, _⟩ := mem_additionalPass target p h5
        exact ⟨k, [], heq⟩
      · obtain ⟨k, t, heq, _⟩ := ih p
          (mem_allPaths.mpr (Or.inr (Or.inr (Or.inr h6))))
        exact ⟨k, t, heq⟩
  -- case 3: empty reference pass
  · intro target path p hp
    simp [refPass, allPaths, pathsOf] at hp
  -- case 4: ignored key
  · intro target path key v rest hcont ih p hp
    simp only [refPass, hcont, if_true] at hp
    obtain ⟨k, t, heq, hmem⟩ := ih p hp
    exact ⟨k, t, heq, by simp [hmem]⟩
  -- case 5: "ignore" custom rule
  · intro target path key v rest hcont cp j hrule hpy ih p hp
    have hrule' : List.lookup (path ++ [key]) config.custom_rules =
      some (Rule.jval j) := hrule
    simp only [refPass, hcont, if_false, hrule', hpy, if_true,
      Bool.false_eq_true] at hp
    obtain ⟨k, t, heq, hmem⟩ := ih p hp
    exact ⟨k, t, heq, by simp [hmem]⟩
  -- case 6: non-"ignore" JSON rule falls through to the default step
  · intro target path key v rest hcont cp j hrule hpy ih ih3 p hp
    have hrule' : List.lookup (path ++ [key]) config.custom_rules =
      some (Rule.jval j) := hrule
    simp only [refPass, hcont, hrule', hpy, Bool.false_eq_true,
      if_false] at hp
    rcases mem_allPaths.mp hp with h1 | h2 | h3 | h4 <;>
      simp only [pathsOf, List.map_append, List.mem_append] at *
    · rcases h1 with h1a | h1b
      · obtain ⟨t, heq⟩ := ih3 p (mem_allPaths.mpr (Or.inl h1a))
        exact ⟨key, t, heq, by simp⟩
      · obtain ⟨k, t, heq, hmem⟩ := ih p (mem_allPaths.mpr (Or.inl h1b))
        exact ⟨k, t, heq, by simp [hmem]⟩
    · rcases h2 with h2a | h2b
      · obtain ⟨t, heq⟩ := ih3 p (mem_allPaths.mpr (Or.inr (Or.inl h2a)))
        exact ⟨key, t, heq, by simp⟩
      · obtain ⟨k, t, heq, hmem⟩ := ih p (mem_allPaths.mpr (Or.inr (Or.inl h2b)))
        exact ⟨k, t, heq, by simp [hmem]⟩
    · rcases h3 with h3a | h3b
      · obtain ⟨t, heq⟩ := ih3 p (mem_allPaths.mpr (Or.inr (Or.inr (Or.inl h3a))))
        exact ⟨key, t, heq, by simp⟩
      · obtain ⟨k, t, heq, hmem⟩ := ih p (mem_allPaths.mpr (Or.inr (Or.inr (Or.inl h3b))))
        exact ⟨k, t, heq, by simp [hmem]⟩
    · rcases h4 with h4a | h4b
      · obtain ⟨t, heq⟩ := ih3 p (mem_allPaths.mpr (Or.inr (Or.inr (Or.inr h4a))))
        exact ⟨key, t, heq, by simp⟩
      · obtain ⟨k, t, heq, hmem⟩ := ih p (mem_allPaths.mpr (Or.inr (Or.inr (Or.inr h4b))))
        exact ⟨k, t, heq, by simp [hmem]⟩
  -- case 7: predicate rule matches, nothing recorded
  · intro target path key v rest hcont cp f hrule tv hfv ih p hp
    have hrule' : List.lookup (path ++ [key]) config.custom_rules =
      some (Rule.fn f) := hrule
    have hfv' : f v ((List.lookup key target).getD Json.null) = true := hfv
    simp only [refPass, hcont, hrule', hfv', if_true, Bool.false_eq_true,
      if_false] at hp
    obtain ⟨k, t, heq, hmem⟩ := ih p hp
    exact ⟨k, t, heq, by simp [hmem]⟩
  -- case 8: predicate rule fails, a differences entry is recorded
  · intro target path key v rest hcont cp f hrule tv hfv ih p hp
    have hrule' : List.lookup (path ++ [key]) config.custom_rules =
      some (Rule.fn f) := hrule
    have hfv' : ¬(f v ((List.lookup key target).getD Json.null) = true) := hfv
    simp only [refPass, hcont, hrule', hfv', if_false, Bool.false_eq_true] at hp
    rcases mem_allPaths.mp hp with h1 | h2 | h3 | h4
    · obtain ⟨k, t, heq, hmem⟩ := ih p (mem_allPaths.mpr (Or.inl h1))
      exact ⟨k, t, heq, by simp [hmem]⟩
    · obtain ⟨k, t, heq, hmem⟩ := ih p (mem_allPaths.mpr (Or.inr (Or.inl h2)))
      exact ⟨k, t, heq, by simp [hmem]⟩
    · simp only [pathsOf, List.map_cons, List.mem_cons] at h3
      rcases h3 with h3a | h3b
      · exact ⟨key, [], by simp [h3a], by simp⟩
      · obtain ⟨k, t, heq, hmem⟩ := ih p
          (mem_allPaths.mpr (Or.inr (Or.inr (Or.inl h3b))))
        exact ⟨k, t, heq, by simp [hmem]⟩
    · obtain ⟨k, t, heq, hmem⟩ := ih p (mem_allPaths.mpr (Or.inr (Or.inr (Or.inr h4))))
      exact ⟨k, t, heq, by simp [hmem]⟩
  -- case 9: no custom rule, default step
  · intro target path key v rest hcont cp hrule ih ih3 p hp
    have hrule' : List.lookup (path ++ [key]) config.custom_rules = none := hrule
    simp only [refPass, hcont, hrule', Bool.false_eq_true, if_false] at hp
    rcases mem_allPaths.mp hp with h1 | h2 | h3 | h4 <;>
      simp only [pathsOf, List.map_append, List.mem_append] at *
    · rcases h1 with h1a | h1b
      · obtain ⟨t, heq⟩ := ih3 p (mem_allPaths.mpr (Or.inl h1a))
        exact ⟨key, t, heq, by simp⟩
      · obtain ⟨k, t, heq, hmem⟩ := ih p (mem_allPaths.mpr (Or.inl h1b))
        exact ⟨k, t, heq, by simp [hmem]⟩
    · rcases h2 with h2a | h2b
      · obtain ⟨t, heq⟩ := ih3 p (mem_allPaths.mpr (Or.inr (Or.inl h2a)))
        exact ⟨key, t, heq, by simp⟩
      · obtain ⟨k, t, heq, hmem⟩ := ih p (mem_allPaths.mpr (Or.inr (Or.inl h2b)))
        exact ⟨k, t, heq, by simp [hmem]⟩
    · rcases h3 with h3a | h3b
      · obtain ⟨t, heq⟩ := ih3 p (mem_allPaths.mpr (Or.inr (Or.inr (Or.inl h3a))))
        exact ⟨key, t, heq, by simp⟩
      · obtain ⟨k, t, heq, hmem⟩ := ih p (mem_allPaths.mpr (Or.inr (Or.inr (Or.inl h3b))))
        exact ⟨k, t, heq, by simp [hmem]⟩
    · rcases h4 with h4a | h4b
      · obtain ⟨t, heq⟩ := ih3 p (mem_allPaths.mpr (Or.inr (Or.inr (Or.inr h4a))))
        exact ⟨key, t, heq, by simp⟩
      · obtain ⟨k, t, heq, hmem⟩ := ih p (mem_allPaths.mpr (Or.inr (Or.inr (Or.inr h4b))))
        exact ⟨k, t, heq, by simp [hmem]⟩
  -- case 10: missing key
  · intro target path key ref_val hlook p hp
    rcases refStep_entry_cases validator config target path key ref_val with
      h | ⟨c, h⟩ | ⟨d, h⟩ | ⟨rkvs, tkvs, hrv, hlk, h⟩
    · rw [h] at hp
      simp only [mem_allPaths, pathsOf, List.map_cons, List.map_nil,
        List.mem_singleton, List.not_mem_nil, or_false, false_or] at hp
      exact ⟨[], hp⟩
    · rw [h] at hp
      simp only [mem_allPaths, pathsOf, List.map_cons, List.map_nil,
        List.mem_singleton, List.not_mem_nil, or_false, false_or] at hp
      exact ⟨[], hp⟩
    · rw [h] at hp
      simp only [mem_allPaths, pathsOf, List.map_cons, List.map_nil,
        List.mem_singleton, List.not_mem_nil, or_false, false_or] at hp
      exact ⟨[], hp⟩
    · rw [hlook] at hlk
      exact absurd hlk (by simp)
  -- case 11: object/object recursion
  · intro target path key cp rkvs tkvs hlook ih p hp
    rcases refStep_entry_cases validator config target path key (Json.obj rkvs) with
      h | ⟨c, h⟩ | ⟨d, h⟩ | ⟨rkvs', tkvs', hrv, hlk, h⟩
    · rw [h] at hp
      simp only [mem_allPaths, pathsOf, List.map_cons, List.map_nil,
        List.mem_singleton, List.not_mem_nil, or_false, false_or] at hp
      exact ⟨[], hp⟩
    · rw [h] at hp
      simp only [mem_allPaths, pathsOf, List.map_cons, List.map_nil,
        List.mem_singleton, List.not_mem_nil, or_false, false_or] at hp
      exact ⟨[], hp⟩
    · rw [h] at hp
      simp only [mem_allPaths, pathsOf, List.map_cons, List.map_nil,
        List.mem_singleton, List.not_mem_nil, or_false, false_or] at hp
      exact ⟨[], hp⟩
    · have hr : rkvs' = rkvs := by
        injection hrv with h'
        exact h'.symm
      have ht : tkvs' = tkvs := by
        rw [hlook] at hlk
        injection hlk with h'
        injection h' with h''
        exact h''.symm
      subst hr; subst ht
      rw [h] at hp
      obtain ⟨k, t, heq⟩ := ih p hp
      exact ⟨k :: t, by simp [heq, show cp = path ++ [key] from rfl]⟩
  -- case 12: equivalent arrays
  · intro target path key r1 t1 hcmp hlook p hp
    rcases refStep_entry_cases validator config target path key (Json.arr r1) with
      h | ⟨c, h⟩ | ⟨d, h⟩ | ⟨rkvs, tkvs, hrv, hlk, h⟩
    · rw [h] at hp
      simp only [mem_allPaths, pathsOf, List.map_cons, List.map_nil,
        List.mem_singleton, List.not_mem_nil, or_false, false_or] at hp
      exact ⟨[], hp⟩
    · rw [h] at hp
      simp only [mem_allPaths, pathsOf, List.map_cons, List.map_nil,
        List.mem_singleton, List.not_mem_nil, or_false, false_or] at hp
      exact ⟨[], hp⟩
    · rw [h] at hp
      simp only [mem_allPaths, pathsOf, List.map_cons, List.map_nil,
        List.mem_singleton, List.not_mem_nil, or_false, false_or] at hp
      exact ⟨[], hp⟩
    · exact absurd hrv (by simp)
  -- case 13: differing arrays
  · intro target path key r1 t1 hcmp hlook p hp
    rcases refStep_entry_cases validator config target path key (Json.arr r1) with
      h | ⟨c, h⟩ | ⟨d, h⟩ | ⟨rkvs, tkvs, hrv, hlk, h⟩
    · rw [h] at hp
      simp only [mem_allPaths, pathsOf, List.map_cons, List.map_nil,
        List.mem_singleton, List.not_mem_nil, or_false, false_or] at hp
      exact ⟨[], hp⟩
    · rw [h] at hp
      simp only [mem_allPaths, pathsOf, List.map_cons, List.map_nil,
        List.mem_singleton, List.not_mem_nil, or_false, false_or] at hp
      exact ⟨[], hp⟩
    · rw [h] at hp
      simp only [mem_allPaths, pathsOf, List.map_cons, List.map_nil,
        List.mem_singleton, List.not_mem_nil, or_false, false_or] at hp
      exact ⟨[], hp⟩
    · exact absurd hrv (by simp)
  -- case 14: equivalent scalar or mixed values
  · intro target path key rv tv hno hna hcv hlook p hp
    rcases refStep_entry_cases validator config target path key rv with
      h | ⟨c, h⟩ | ⟨d, h⟩ | ⟨rkvs, tkvs, hrv, hlk, h⟩
    · rw [h] at hp
      simp only [mem_allPaths, pathsOf, List.map_cons, List.map_nil,
        List.mem_singleton, List.not_mem_nil, or_false, false_or] at hp
      exact ⟨[], hp⟩
    · rw [h] at hp
      simp only [mem_allPaths, pathsOf, List.map_cons, List.map_nil,
        List.mem_singleton, List.not_mem_nil, or_false, false_or] at hp
      exact ⟨[], hp⟩
    · rw [h] at hp
      simp only [mem_allPaths, pathsOf, List.map_cons, List.map_nil,
        List.mem_singleton, List.not_mem_nil, or_false, false_or] at hp
      exact ⟨[], hp⟩
    · rw [hlook] at hlk
      injection hlk with h'
      exact (hno rkvs tkvs hrv h').elim
  -- case 15: differing scalar or mixed values
  · intro target path key rv tv hno hna hcv hlook p hp
    rcases refStep_entry_cases validator config target path key rv with
      h | ⟨c, h⟩ | ⟨d, h⟩ | ⟨rkvs, tkvs, hrv, hlk, h⟩
    · rw [h] at hp
      simp only [mem_allPaths, pathsOf, List.map_cons, List.map_nil,
        List.mem_singleton, List.not_mem_nil, or_false, false_or] at hp
      exact ⟨[], hp⟩
    · rw [h] at hp
      simp only [mem_allPaths, pathsOf, List.map_cons, List.map_nil,
        List.mem_singleton, List.not_mem_nil, or_false, false_or] at hp
      exact ⟨[], hp⟩
    · rw [h] at hp
      simp only [mem_allPaths, pathsOf, List.map_cons, List.map_nil,
        List.mem_singleton, List.not_mem_nil, or_false, false_or] at hp
      exact ⟨[], hp⟩
    · rw [hlook] at hlk
      injection hlk with h'
      exact (hno rkvs tkvs hrv h').elim

/-- Lookup skips an appended prefix that does not hold the key. -/
theorem lookup_append_right {A B : JMap} {k : PathKey} (h : k ∉ pathsOf A) :
    List.lookup k (A ++ B) = List.lookup k B := by
  induction A with
  | nil => simp
  | cons kv rest ih =>
    obtain ⟨k₁, v₁⟩ := kv
    have hcons : pathsOf ((k₁, v₁) :: rest) = k₁ :: pathsOf rest := rfl
    have h1 : k ≠ k₁ := by
      intro hk
      exact h (hcons ▸ List.mem_cons.mpr (Or.inl hk))
    have h2 : k ∉ pathsOf rest := by
      intro hk
      exact h (hcons ▸ List.mem_cons.mpr (Or.inr hk))
    rw [List.cons_append, List.lookup_cons, beq_eq_false_iff_ne.mpr h1]
    exact ih h2

/-- Behaviour of the reference pass at a key governed by a predicate
rule: a false predicate yields exactly one differences entry at the
key's path and nothing else there; a true predicate leaves the path out
of all four maps. -/
theorem refPass_fn_key (validator : Json → Json → Option String)
    (config : ComparisonConfig) (target : JObj) (path : PathKey)
    (key : String) (f : Json → Json → Bool) (ref_val : Json)
    (hik : config.ignore_keys.contains key = false)
    (hrule : List.lookup (path ++ [key]) config.custom_rules =
      some (Rule.fn f)) :
    ∀ L : JObj, (L.map Prod.fst).Nodup → List.lookup key L = some ref_val →
      (f ref_val ((List.lookup key target).getD Json.null) = false →
        List.lookup (path ++ [key])
            (refPass validator config target path L).2.2.1 =
          some (diffEntry ref_val ((List.lookup key target).getD Json.null)) ∧
        (path ++ [key]) ∉ pathsOf (refPass validator config target path L).1 ∧
        (path ++ [key]) ∉ pathsOf (refPass validator config target path L).2.1 ∧
        (path ++ [key]) ∉ pathsOf (refPass validator config target path L).2.2.2) ∧
      (f ref_val ((List.lookup key target).getD Json.null) = true →
        (path ++ [key]) ∉ pathsOf (refPass validator config target path L).1 ∧
        (path ++ [key]) ∉ pathsOf (refPass validator config target path L).2.1 ∧
        (path ++ [key]) ∉ pathsOf (refPass validator config target path L).2.2.1 ∧
        (path ++ [key]) ∉ pathsOf (refPass validator config target path L).2.2.2) := by
  intro L
  induction L with
  | nil => intro _ hlk; simp at hlk
  | cons kv rest ih =>
    obtain ⟨k', v'⟩ := kv
    intro hnd hlk
    rw [List.map_cons] at hnd
    have hnd1 : k' ∉ rest.map Prod.fst := (List.nodup_cons.mp hnd).1
    have hnd2 : (rest.map Prod.fst).Nodup := (List.nodup_cons.mp hnd).2
    by_cases hkk : k' = key
    · subst hkk
      rw [List.lookup_cons] at hlk
      simp only [beq_self_eq_true] at hlk
      have hv : v' = ref_val := by
        injection hlk
      subst hv
      have htail : (path ++ [k']) ∉
          allPaths (refPass validator config target path rest) := by
        intro hmem
        obtain ⟨k, t, heq, hk⟩ :=
          (paths_extend validator config).2.1 target path rest _ hmem
        have h0 : [k'] = k :: t := List.append_cancel_left heq
        injection h0 with h1 h2
        subst h1
        exact hnd1 hk
      have ht1 : (path ++ [k']) ∉
          pathsOf (refPass validator config target path rest).1 :=
        fun h => htail (mem_allPaths.mpr (Or.inl h))
      have ht2 : (path ++ [k']) ∉
          pathsOf (refPass validator config target path rest).2.1 :=
        fun h => htail (mem_allPaths.mpr (Or.inr (Or.inl h)))
      have ht3 : (path ++ [k']) ∉
          pathsOf (refPass validator config target path rest).2.2.1 :=
        fun h => htail (mem_allPaths.mpr (Or.inr (Or.inr (Or.inl h))))
      have ht4 : (path ++ [k']) ∉
          pathsOf (refPass validator config target path rest).2.2.2 :=
        fun h => htail (mem_allPaths.mpr (Or.inr (Or.inr (Or.inr h))))
      by_cases hf : f v' ((List.lookup k' target).getD Json.null) = true
      · constructor
        · intro h
          rw [h] at hf
          exact absurd hf (by simp)
        · intro _
          simp only [refPass, hik, Bool.false_eq_true, if_false, hrule, hf,
            if_true]
          exact ⟨ht1, ht2, ht3, ht4⟩
      · constructor
        · intro _
          simp only [refPass, hik, Bool.false_eq_true, if_false, hrule, hf,
            if_false]
          refine ⟨?_, ht1, ht2, ht4⟩
          rw [List.lookup_cons]
          simp
        · intro h
          exact absurd h hf
    · have hlk' : List.lookup key rest = some ref_val := by
        rw [List.lookup_cons, beq_eq_false_iff_ne.mpr (Ne.symm hkk)] at hlk
        exact hlk
      have IH := ih hnd2 hlk'
      have hstep : (path ++ [key]) ∉
          allPaths (refStep validator config target path k' v') := by
        intro hmem
        obtain ⟨t, heq⟩ := (paths_extend validator config).2.2 target path k' v' _ hmem
        have h0 : [key] = k' :: t := List.append_cancel_left heq
        injection h0 with h1 h2
        exact hkk h1.symm
      have hs1 : (path ++ [key]) ∉
          pathsOf (refStep validator config target path k' v').1 :=
        fun h => hstep (mem_allPaths.mpr (Or.inl h))
      have hs2 : (path ++ [key]) ∉
          pathsOf (refStep validator config target path k' v').2.1 :=
        fun h => hstep (mem_allPaths.mpr (Or.inr (Or.inl h)))
      have hs3 : (path ++ [key]) ∉
          pathsOf (refStep validator config target path k' v').2.2.1 :=
        fun h => hstep (mem_allPaths.mpr (Or.inr (Or.inr (Or.inl h))))
      have hs4 : (path ++ [key]) ∉
          pathsOf (refStep validator config target path k' v').2.2.2 :=
        fun h => hstep (mem_allPaths.mpr (Or.inr (Or.inr (Or.inr h))))
    -- now reduce the cons step of refPass according to its branches
      by_cases hcont : config.ignore_keys.contains k' = true
      · simp only [refPass, hcont, if_true]
        exact IH
      · rcases hr : List.lookup (path ++ [k']) config.custom_rules with _ | rule
        · simp only [refPass, hcont, Bool.false_eq_true, if_false, hr]
          constructor
          · intro h
            obtain ⟨ih1, ih2, ih3, ih4⟩ := IH.1 h
            refine ⟨?_, ?_, ?_, ?_⟩
            · rw [lookup_append_right hs3]
              exact ih1
            · simp only [pathsOf, List.map_append, List.mem_append]
              rintro (hh | hh)
              · exact hs1 hh
              · exact ih2 hh
            · simp only [pathsOf, List.map_append, List.mem_append]
              rintro (hh | hh)
              · exact hs2 hh
              · exact ih3 hh
            · simp only [pathsOf, List.map_append, List.mem_append]
              rintro (hh | hh)
              · exact hs4 hh
              · exact ih4 hh
          · intro h
            obtain ⟨ih1, ih2, ih3, ih4⟩ := IH.2 h
            refine ⟨?_, ?_, ?_, ?_⟩ <;>
              · simp only [pathsOf, List.map_append, List.mem_append]
                rintro (hh | hh)
                · first
                    | exact hs1 hh
                    | exact hs2 hh
                    | exact hs3 hh
                    | exact hs4 hh
                · first
                    | exact ih1 hh
                    | exact ih2 hh
                    | exact ih3 hh
                    | exact ih4 hh
        · cases rule with
          | jval j =>
            by_cases hpy : pythonEq j (Json.str "ignore") = true
            · simp only [refPass, hcont, Bool.false_eq_true, if_false, hr,
                hpy, if_true]
              exact IH
            · simp only [refPass, hcont, Bool.false_eq_true, if_false, hr,
                hpy, if_false]
              constructor
              · intro h
                obtain ⟨ih1, ih2, ih3, ih4⟩ := IH.1 h
                refine ⟨?_, ?_, ?_, ?_⟩
                · rw [lookup_append_right hs3]
                  exact ih1
                · simp only [pathsOf, List.map_append, List.mem_append]
                  rintro (hh | hh)
                  · exact hs1 hh
                  · exact ih2 hh
                · simp only [pathsOf, List.map_append, List.mem_append]
                  rintro (hh | hh)
                  · exact hs2 hh
                  · exact ih3 hh
                · simp only [pathsOf, List.map_append, List.mem_append]
                  rintro (hh | hh)
                  · exact hs4 hh
                  · exact ih4 hh
              · intro h
                obtain ⟨ih1, ih2, ih3, ih4⟩ := IH.2 h
                refine ⟨?_, ?_, ?_, ?_⟩ <;>
                  · simp only [pathsOf, List.map_append, List.mem_append]
                    rintro (hh | hh)
                    · first
                        | exact hs1 hh
                        | exact hs2 hh
                        | exact hs3 hh
                        | exact hs4 hh
                    · first
                        | exact ih1 hh
                        | exact ih2 hh
                        | exact ih3 hh
                        | exact ih4 hh
          | fn f' =>
            have hne : path ++ [key] ≠ path ++ [k'] := by
              intro h
              have h0 : [key] = [k'] := List.append_cancel_left h
              injection h0 with h1 _
              exact hkk h1.symm
            by_cases hf' : f' v' ((List.lookup k' target).getD Json.null) = true
            · simp only [refPass, hcont, Bool.false_eq_true, if_false, hr,
                hf', if_true]
              exact IH
            · simp only [refPass, hcont, Bool.false_eq_true, if_false, hr,
                hf', if_false]
              constructor
              · intro h
                obtain ⟨ih1, ih2, ih3, ih4⟩ := IH.1 h
                refine ⟨?_, ih2, ih3, ih4⟩
                rw [List.lookup_cons, beq_eq_false_iff_ne.mpr hne]
                exact ih1
              · intro h
                obtain ⟨ih1, ih2, ih3, ih4⟩ := IH.2 h
                refine ⟨ih1, ih2, ?_, ih4⟩
                simp only [pathsOf, List.map_cons, List.mem_cons]
                rintro (hh | hh)
                · exact hne hh
                · exact ih3 hh

/-- C4: when a predicate custom rule governs the exact current path of a
non-ignored reference key, the predicate is applied to the reference
value and `target.get(key)` (Python `None`, i.e. JSON null, when the key
is absent); a false result records exactly one `differences` entry at
that path holding the raw reference/target pair, and a true result
records that path in none of the four maps, not even `common`. -/
theorem predicate_rule_spec (validator : Json → Json → Option String)
    (config : ComparisonConfig) (reference target : JObj) (path : PathKey)
    (key : String) (f : Json → Json → Bool) (ref_val : Json)
    (hnd : (reference.map Prod.fst).Nodup)
    (href : List.lookup key reference = some ref_val)
    (hik : config.ignore_keys.contains key = false)
    (hrule : List.lookup (path ++ [key]) config.custom_rules =
      some (Rule.fn f))
    (hgate : schemaGate validator config reference target path = none) :
    (f ref_val ((List.lookup key target).getD Json.null) = false →
      List.lookup (path ++ [key])
          (compare_json validator config reference target path).2.2.1 =
        some (diffEntry ref_val ((List.lookup key target).getD Json.null)) ∧
      (path ++ [key]) ∉
        pathsOf (compare_json validator config reference target path).1 ∧
      (path ++ [key]) ∉
        pathsOf (compare_json validator config reference target path).2.1 ∧
      (path ++ [key]) ∉
        pathsOf (compare_json validator config reference target path).2.2.2) ∧
    (f ref_val ((List.lookup key target).getD Json.null) = true →
      (path ++ [key]) ∉
        pathsOf (compare_json validator config reference target path).1 ∧
      (path ++ [key]) ∉
        pathsOf (compare_json validator config reference target path).2.1 ∧
      (path ++ [key]) ∉
        pathsOf (compare_json validator config reference target path).2.2.1 ∧
      (path ++ [key]) ∉
        pathsOf (compare_json validator config reference target path).2.2.2) := by
  have hmain := refPass_fn_key validator config target path key f ref_val
    hik hrule reference hnd href
  have hadd : (path ++ [key]) ∉
      pathsOf (additionalPass reference config path target) := by
    intro hmem
    obtain ⟨k, heq, hnone, _⟩ := mem_additionalPass target _ hmem
    have h0 : [key] = [k] := List.append_cancel_left heq
    injection h0 with h1 _
    rw [← h1] at hnone
    rw [href] at hnone
    exact absurd hnone (by simp)
  simp only [compare_json, hgate]
  constructor
  · intro h
    obtain ⟨h1, h2, h3, h4⟩ := hmain.1 h
    refine ⟨h1, h2, h3, ?_⟩
    simp only [pathsOf, List.map_append, List.mem_append]
    rintro (hh | hh)
    · exact hadd hh
    · exact h4 hh
  · intro h
    obtain ⟨h1, h2, h3, h4⟩ := hmain.2 h
    refine ⟨h1, h2, h3, ?_⟩
    simp only [pathsOf, List.map_append, List.mem_append]
    rintro (hh | hh)
    · exact hadd hh
    · exact h4 hh

/-- A configuration holding an always-false predicate rule at path
`k`. -/
def predConfig : ComparisonConfig :=
  ComparisonConfig.init false false 0 none
    (some [(["k"], Rule.fn (fun _ _ => false))]) none

/-- C4 (witness): `predicate_rule_spec` at a concrete configuration —
the always-false predicate on key `k`, with `k` absent from the target,
is fed the reference value and null and yields a `differences` entry
with the raw pair. -/
theorem predicate_rule_spec_witness :
    List.lookup ["k"]
        (compare_json okValidator predConfig [("k", Json.num 1)] [] []).2.2.1 =
      some (diffEntry (Json.num 1) Json.null) :=
  ((predicate_rule_spec okValidator predConfig [("k", Json.num 1)] [] [] "k"
    (fun _ _ => false) (Json.num 1) (by decide) rfl rfl rfl rfl).1 rfl).1

/-- No path produced by the engine ends in an ignored key name, except
the reserved `schema_error` entry: the additional pass and the
reference pass both skip ignored keys at every depth. -/
theorem ignored_last_segment (validator : Json → Json → Option String)
    (config : ComparisonConfig) (kign : String)
    (hmem : config.ignore_keys.contains kign = true)
    (hne : kign ≠ "schema_error") :
    (∀ (reference target : JObj) (path : PathKey),
      ∀ p ∈ allPaths (compare_json validator config reference target path),
        p.getLast? ≠ some kign) ∧
    (∀ (target : JObj) (path : PathKey) (L : JObj),
      ∀ p ∈ allPaths (refPass validator config target path L),
        p.getLast? ≠ some kign) ∧
    (∀ (target : JObj) (path : PathKey) (key : String) (ref_val : Json),
      config.ignore_keys.contains key = false →
      ∀ p ∈ allPaths (refStep validator config target path key ref_val),
        p.getLast? ≠ some kign) := by
  have hkey_ne : ∀ key : String, config.ignore_keys.contains key = false →
      key ≠ kign := by
    intro key h hk
    rw [hk, hmem] at h
    exact absurd h (by simp)
  refine compare_json.mutual_induct validator config
    (fun reference target path =>
      ∀ p ∈ allPaths (compare_json validator config reference target path),
        p.getLast? ≠ some kign)
    (fun target path L =>
      ∀ p ∈ allPaths (refPass validator config target path L),
        p.getLast? ≠ some kign)
    (fun target path key ref_val =>
      config.ignore_keys.contains key = false →
      ∀ p ∈ allPaths (refStep validator config target path key ref_val),
        p.getLast? ≠ some kign)
    ?_ ?_ ?_ ?_ ?_ ?_ ?_ ?_ ?_ ?_ ?_ ?_ ?_ ?_ ?_
  · intro reference target path msg hg p hp
    simp only [compare_json, hg] at hp
    simp only [mem_allPaths, pathsOf, List.map_nil, List.map_cons,
      List.not_mem_nil, List.mem_singleton, false_or] at hp
    subst hp
    simp only [List.getLast?_singleton, ne_eq, Option.some.injEq]
    exact fun h => hne h.symm
  · intro reference target path hg ih p hp
    simp only [compare_json, hg] at hp
    rcases mem_allPaths.mp hp with h1 | h2 | h3 | h4
    · exact ih p (mem_allPaths.mpr (Or.inl h1))
    · exact ih p (mem_allPaths.mpr (Or.inr (Or.inl h2)))
    · exact ih p (mem_allPaths.mpr (Or.inr (Or.inr (Or.inl h3))))
    · simp only [pathsOf, List.map_append, List.mem_append] at h4
      rcases h4 with h5 | h6
      · obtain ⟨k, heq, _, hcf⟩ := mem_additionalPass target p h5
        subst heq
        rw [List.getLast?_concat]
        simp only [ne_eq, Option.some.injEq]
        exact fun h => hkey_ne k hcf h
      · exact ih p (mem_allPaths.mpr (Or.inr (Or.inr (Or.inr h6))))
  · intro target path p hp
    simp [refPass, allPaths, pathsOf] at hp
  · intro target path key v rest hcont ih p hp
    simp only [refPass, hcont, if_true] at hp
    exact ih p hp
  · intro target path key v rest hcont cp j hrule hpy ih p hp
    have hrule' : List.lookup (path ++ [key]) config.custom_rules =
      some (Rule.jval j) := hrule
    simp only [refPass, hcont, Bool.false_eq_true, if_false, hrule', hpy,
      if_true] at hp
    exact ih p hp
  · intro target path key v rest hcont cp j hrule hpy ih ih3 p hp
    have hrule' : List.lookup (path ++ [key]) config.custom_rules =
      some (Rule.jval j) := hrule
    have hcf : config.ignore_keys.contains key = false := by
      revert hcont
      cases config.ignore_keys.contains key <;> simp
    simp only [refPass, hcont, Bool.false_eq_true, if_false, hrule', hpy] at hp
    rcases mem_allPaths.mp hp with h1 | h2 | h3 | h4 <;>
      simp only [pathsOf, List.map_append, List.mem_append] at *
    · rcases h1 with h1a | h1b
      · exact ih3 hcf p (mem_allPaths.mpr (Or.inl h1a))
      · exact ih p (mem_allPaths.mpr (Or.inl h1b))
    · rcases h2 with h2a | h2b
      · exact ih3 hcf p (mem_allPaths.mpr (Or.inr (Or.inl h2a)))
      · exact ih p (mem_allPaths.mpr (Or.inr (Or.inl h2b)))
    · rcases h3 with h3a | h3b
      · exact ih3 hcf p (mem_allPaths.mpr (Or.inr (Or.inr (Or.inl h3a))))
      · exact ih p (mem_allPaths.mpr (Or.inr (Or.inr (Or.inl h3b))))
    · rcases h4 with h4a | h4b
      · exact ih3 hcf p (mem_allPaths.mpr (Or.inr (Or.inr (Or.inr h4a))))
      · exact ih p (mem_allPaths.mpr (Or.inr (Or.inr (Or.inr h4b))))
  · intro target path key v rest hcont cp f hrule tv hfv ih p hp
    have hrule' : List.lookup (path ++ [key]) config.custom_rules =
      some (Rule.fn f) := hrule
    have hfv' : f v ((List.lookup key target).getD Json.null) = true := hfv
    simp only [refPass, hcont, Bool.false_eq_true, if_false, hrule', hfv',
      if_true] at hp
    exact ih p hp
  · intro target path key v rest hcont cp f hrule tv hfv ih p hp
    have hrule' : List.lookup (path ++ [key]) config.custom_rules =
      some (Rule.fn f) := hrule
    have hfv' : ¬(f v ((List.lookup key target).getD Json.null) = true) := hfv
    have hcf : config.ignore_keys.contains key = false := by
      revert hcont
      cases config.ignore_keys.contains key <;> simp
    simp only [refPass, hcont, Bool.false_eq_true, if_false, hrule', hfv'] at hp
    rcases mem_allPaths.mp hp with h1 | h2 | h3 | h4
    · exact ih p (mem_allPaths.mpr (Or.inl h1))
    · exact ih p (mem_allPaths.mpr (Or.inr (Or.inl h2)))
    · simp only [pathsOf, List.map_cons, List.mem_cons] at h3
      rcases h3 with h3a | h3b
      · subst h3a
        rw [List.getLast?_concat]
        simp only [ne_eq, Option.some.injEq]
        exact fun h => hkey_ne key hcf h
      · exact ih p (mem_allPaths.mpr (Or.inr (Or.inr (Or.inl h3b))))
    · exact ih p (mem_allPaths.mpr (Or.inr (Or.inr (Or.inr h4))))
  · intro target path key v rest hcont cp hrule ih ih3 p hp
    have hrule' : List.lookup (path ++ [key]) config.custom_rules = none := hrule
    have hcf : config.ignore_keys.contains key = false := by
      revert hcont
      cases config.ignore_keys.contains key <;> simp
    simp only [refPass, hcont, Bool.false_eq_true, if_false, hrule'] at hp
    rcases mem_allPaths.mp hp with h1 | h2 | h3 | h4 <;>
      simp only [pathsOf, List.map_append, List.mem_append] at *
    · rcases h1 with h1a | h1b
      · exact ih3 hcf p (mem_allPaths.mpr (Or.inl h1a))
      · exact ih p (mem_allPaths.mpr (Or.inl h1b))
    · rcases h2 with h2a | h2b
      · exact ih3 hcf p (mem_allPaths.mpr (Or.inr (Or.inl h2a)))
      · exact ih p (mem_allPaths.mpr (Or.inr (Or.inl h2b)))
    · rcases h3 with h3a | h3b
      · exact ih3 hcf p (mem_allPaths.mpr (Or.inr (Or.inr (Or.inl h3a))))
      · exact ih p (mem_allPaths.mpr (Or.inr (Or.inr (Or.inl h3b))))
    · rcases h4 with h4a | h4b
      · exact ih3 hcf p (mem_allPaths.mpr (Or.inr (Or.inr (Or.inr h4a))))
      · exact ih p (mem_allPaths.mpr (Or.inr (Or.inr (Or.inr h4b))))
  · intro target path key ref_val hlook hcf p hp
    rcases refStep_entry_cases validator config target path key ref_val with
      h | ⟨c, h⟩ | ⟨d, h⟩ | ⟨rkvs, tkvs, hrv, hlk, h⟩
    · rw [h] at hp
      simp only [mem_allPaths, pathsOf, List.map_cons, List.map_nil,
        List.mem_singleton, List.not_mem_nil, or_false, false_or] at hp
      subst hp
      rw [List.getLast?_concat]
      simp only [ne_eq, Option.some.injEq]
      exact fun h' => hkey_ne key hcf h'
    · rw [h] at hp
      simp only [mem_allPaths, pathsOf, List.map_cons, List.map_nil,
        List.mem_singleton, List.not_mem_nil, or_false, false_or] at hp
      subst hp
      rw [List.getLast?_concat]
      simp only [ne_eq, Option.some.injEq]
      exact fun h' => hkey_ne key hcf h'
    · rw [h] at hp
      simp only [mem_allPaths, pathsOf, List.map_cons, List.map_nil,
        List.mem_singleton, List.not_mem_nil, or_false, false_or] at hp
      subst hp
      rw [List.getLast?_concat]
      simp only [ne_eq, Option.some.injEq]
      exact fun h' => hkey_ne key hcf h'
    · rw [hlook] at hlk
      exact absurd hlk (by simp)
  · intro target path key cp rkvs tkvs hlook ih hcf p hp
    rcases refStep_entry_cases validator config target path key (Json.obj rkvs) with
      h | ⟨c, h⟩ | ⟨d, h⟩ | ⟨rkvs', tkvs', hrv, hlk, h⟩
    · rw [h] at hp
      simp only [mem_allPaths, pathsOf, List.map_cons, List.map_nil,
        List.mem_singleton, List.not_mem_nil, or_false, false_or] at hp
      subst hp
      rw [List.getLast?_concat]
      simp only [ne_eq, Option.some.injEq]
      exact fun h' => hkey_ne key hcf h'
    · rw [h] at hp
      simp only [mem_allPaths, pathsOf, List.map_cons, List.map_nil,
        List.mem_singleton, List.not_mem_nil, or_false, false_or] at hp
      subst hp
      rw [List.getLast?_concat]
      simp only [ne_eq, Option.some.injEq]
      exact fun h' => hkey_ne key hcf h'
    · rw [h] at hp
      simp only [mem_allPaths, pathsOf, List.map_cons, List.map_nil,
        List.mem_singleton, List.not_mem_nil, or_false, false_or] at hp
      subst hp
      rw [List.getLast?_concat]
      simp only [ne_eq, Option.some.injEq]
      exact fun h' => hkey_ne key hcf h'
    · have hr : rkvs' = rkvs := by
        injection hrv with h'
        exact h'.symm
      have ht : tkvs' = tkvs := by
        rw [hlook] at hlk
        injection hlk with h'
        injection h' with h''
        exact h''.symm
      subst hr; subst ht
      rw [h] at hp
      exact ih p hp
  · intro target path key r1 t1 hcmp hlook hcf p hp
    rcases refStep_entry_cases validator config target path key (Json.arr r1) with
      h | ⟨c, h⟩ | ⟨d, h⟩ | ⟨rkvs, tkvs, hrv, hlk, h⟩
    · rw [h] at hp
      simp only [mem_allPaths, pathsOf, List.map_cons, List.map_nil,
        List.mem_singleton, List.not_mem_nil, or_false, false_or] at hp
      subst hp
      rw [List.getLast?_concat]
      simp only [ne_eq, Option.some.injEq]
      exact fun h' => hkey_ne key hcf h'
    · rw [h] at hp
      simp only [mem_allPaths, pathsOf, List.map_cons, List.map_nil,
        List.mem_singleton, List.not_mem_nil, or_false, false_or] at hp
      subst hp
      rw [List.getLast?_concat]
      simp only [ne_eq, Option.some.injEq]
      exact fun h' => hkey_ne key hcf h'
    · rw [h] at hp
      simp only [mem_allPaths, pathsOf, List.map_cons, List.map_nil,
        List.mem_singleton, List.not_mem_nil, or_false, false_or] at hp
      subst hp
      rw [List.getLast?_concat]
      simp only [ne_eq, Option.some.injEq]
      exact fun h' => hkey_ne key hcf h'
    · exact absurd hrv (by simp)
  · intro target path key r1 t1 hcmp hlook hcf p hp
    rcases refStep_entry_cases validator config target path key (Json.arr r1) with
      h | ⟨c, h⟩ | ⟨d, h⟩ | ⟨rkvs, tkvs, hrv, hlk, h⟩
    · rw [h] at hp
      simp only [mem_allPaths, pathsOf, List.map_cons, List.map_nil,
        List.mem_singleton, List.not_mem_nil, or_false, false_or] at hp
      subst hp
      rw [List.getLast?_concat]
      simp only [ne_eq, Option.some.injEq]
      exact fun h' => hkey_ne key hcf h'
    · rw [h] at hp
      simp only [mem_allPaths, pathsOf, List.map_cons, List.map_nil,
        List.mem_singleton, List.not_mem_nil, or_false, false_or] at hp
      subst hp
      rw [List.getLast?_concat]
      simp only [ne_eq, Option.some.injEq]
      exact fun h' => hkey_ne key hcf h'
    · rw [h] at hp
      simp only [mem_allPaths, pathsOf, List.map_cons, List.map_nil,
        List.mem_singleton, List.not_mem_nil, or_false, false_or] at hp
      subst hp
      rw [List.getLast?_concat]
      simp only [ne_eq, Option.some.injEq]
      exact fun h' => hkey_ne key hcf h'
    · exact absurd hrv (by simp)
  · intro target path key rv tv hno hna hcv hlook hcf p hp
    rcases refStep_entry_cases validator config target path key rv with
      h | ⟨c, h⟩ | ⟨d, h⟩ | ⟨rkvs, tkvs, hrv, hlk, h⟩
    · rw [h] at hp
      simp only [mem_allPaths, pathsOf, List.map_cons, List.map_nil,
        List.mem_singleton, List.not_mem_nil, or_false, false_or] at hp
      subst hp
      rw [List.getLast?_concat]
      simp only [ne_eq, Option.some.injEq]
      exact fun h' => hkey_ne key hcf h'
    · rw [h] at hp
      simp only [mem_allPaths, pathsOf, List.map_cons, List.map_nil,
        List.mem_singleton, List.not_mem_nil, or_false, false_or] at hp
      subst hp
      rw [List.getLast?_concat]
      simp only [ne_eq, Option.some.injEq]
      exact fun h' => hkey_ne key hcf h'
    · rw [h] at hp
      simp only [mem_allPaths, pathsOf, List.map_cons, List.map_nil,
        List.mem_singleton, List.not_mem_nil, or_false, false_or] at hp
      subst hp
      rw [List.getLast?_concat]
      simp only [ne_eq, Option.some.injEq]
      exact fun h' => hkey_ne key hcf h'
    · rw [hlook] at hlk
      injection hlk with h'
      exact (hno rkvs tkvs hrv h').elim
  · intro target path key rv tv hno hna hcv hlook hcf p hp
    rcases refStep_entry_cases validator config target path key rv with
      h | ⟨c, h⟩ | ⟨d, h⟩ | ⟨rkvs, tkvs, hrv, hlk, h⟩
    · rw [h] at hp
      simp only [mem_allPaths, pathsOf, List.map_cons, List.map_nil,
        List.mem_singleton, List.not_mem_nil, or_false, false_or] at hp
      subst hp
      rw [List.getLast?_concat]
      simp only [ne_eq, Option.some.injEq]
      exact fun h' => hkey_ne key hcf h'
    · rw [h] at hp
      simp only [mem_allPaths, pathsOf, List.map_cons, List.map_nil,
        List.mem_singleton, List.not_mem_nil, or_false, false_or] at hp
      subst hp
      rw [List.getLast?_concat]
      simp only [ne_eq, Option.some.injEq]
      exact fun h' => hkey_ne key hcf h'
    · rw [h] at hp
      simp only [mem_allPaths, pathsOf, List.map_cons, List.map_nil,
        List.mem_singleton, List.not_mem_nil, or_false, false_or] at hp
      subst hp
      rw [List.getLast?_concat]
      simp only [ne_eq, Option.some.injEq]
      exact fun h' => hkey_ne key hcf h'
    · rw [hlook] at hlk
      injection hlk with h'
      exact (hno rkvs tkvs hrv h').elim

/-- C8 (counterexample): with `"schema_error"` itself in `ignore_keys`
and a failing schema gate, the reserved `schema_error` entry still
lands in `additional`, so a path whose final segment is an ignored key
name does appear in one of the four maps. -/
def schemaErrIgnoredConfig : ComparisonConfig :=
  ComparisonConfig.init false false 0 (some ["schema_error"]) none
    (some sampleSchema)

theorem ignored_schema_error_path_cex :
    "schema_error" ∈ schemaErrIgnoredConfig.ignore_keys ∧
    (["schema_error"] : PathKey) ∈
      pathsOf (compare_json failValidator schemaErrIgnoredConfig [] [] []).2.2.2 ∧
    (["schema_error"] : PathKey).getLast? = some "schema_error" := by
  refine ⟨by decide, ?_, rfl⟩
  simp [compare_json, schemaGate, schemaErrIgnoredConfig, ComparisonConfig.init,
    sampleSchema, failValidator, jsonTruthy, pathsOf]

/-- C8 (amended): for every reference, target and config with a key
name in `ignore_keys` other than the reserved string `"schema_error"`
(which the failing schema gate writes into `additional` regardless), no
path whose final segment is that name appears in any of the four maps
of `compare`. -/
theorem ignore_keys_never_recorded (validator : Json → Json → Option String)
    (config : ComparisonConfig) (reference target : JObj) (kign : String)
    (hmem : kign ∈ config.ignore_keys) (hne : kign ≠ "schema_error") :
    ∀ p ∈ allPaths (compare_json validator config reference target []),
      p.getLast? ≠ some kign :=
  (ignored_last_segment validator config kign (by simp [hmem]) hne).1
    reference target []

/-- A configuration ignoring the key name `id`. -/
def idIgnoredConfig : ComparisonConfig :=
  ComparisonConfig.init false false 0 (some ["id"]) none none

/-- C8 (witness): `ignore_keys_never_recorded` at a concrete comparison
with `"id"` ignored: the path `id` cannot appear in any map. -/
theorem ignore_keys_never_recorded_witness :
    (["id"] : PathKey) ∉ allPaths (compare_json okValidator idIgnoredConfig
      [("id", Json.num 1), ("a", Json.num 2)]
      [("id", Json.num 3), ("b", Json.num 4)] []) :=
  fun h => ignore_keys_never_recorded okValidator idIgnoredConfig
    [("id", Json.num 1), ("a", Json.num 2)]
    [("id", Json.num 3), ("b", Json.num 4)] "id" (by decide) (by decide)
    ["id"] h rfl

/-- The schema gate ignores the `case_insensitive` flag. -/
theorem schemaGate_case_flag (validator : Json → Json → Option String)
    (config : ComparisonConfig) (b : Bool) (reference target : JObj)
    (path : PathKey) :
    schemaGate validator { config with case_insensitive := b }
      reference target path =
      schemaGate validator config reference target path := rfl

/-- The additional-key pass ignores the `case_insensitive` flag. -/
theorem additionalPass_case_flag (reference : JObj)
    (config : ComparisonConfig) (b : Bool) (path : PathKey) :
    ∀ L : JObj, additionalPass reference { config with case_insensitive := b }
      path L = additionalPass reference config path L := by
  intro L
  induction L with
  | nil => simp [additionalPass]
  | cons kv rest ih =>
    obtain ⟨k, v⟩ := kv
    simp only [additionalPass, ih]

/-- Flipping only the `case_insensitive` flag changes neither the
`missing` nor the `additional` component of any of the three engine
functions: the flag is consulted only by `compare_values`, which only
splits present keys between `common` and `differences`. -/
theorem case_flag_invariance (validator : Json → Json → Option String)
    (config : ComparisonConfig) (b : Bool) :
    (∀ (reference target : JObj) (path : PathKey),
      (compare_json validator { config with case_insensitive := b }
          reference target path).1 =
        (compare_json validator config reference target path).1 ∧
      (compare_json validator { config with case_insensitive := b }
          reference target path).2.2.2 =
        (compare_json validator config reference target path).2.2.2) ∧
    (∀ (target : JObj) (path : PathKey) (L : JObj),
      (refPass validator { config with case_insensitive := b }
          target path L).1 =
        (refPass validator config target path L).1 ∧
      (refPass validator { config with case_insensitive := b }
          target path L).2.2.2 =
        (refPass validator config target path L).2.2.2) ∧
    (∀ (target : JObj) (path : PathKey) (key : String) (ref_val : Json),
      (refStep validator { config with case_insensitive := b }
          target path key ref_val).1 =
        (refStep validator config target path key ref_val).1 ∧
      (refStep validator { config with case_insensitive := b }
          target path key ref_val).2.2.2 =
        (refStep validator config target path key ref_val).2.2.2) := by
  refine compare_json.mutual_induct validator config
    (fun reference target path =>
      (compare_json validator { config with case_insensitive := b }
          reference target path).1 =
        (compare_json validator config reference target path).1 ∧
      (compare_json validator { config with case_insensitive := b }
          reference target path).2.2.2 =
        (compare_json validator config reference target path).2.2.2)
    (fun target path L =>
      (refPass validator { config with case_insensitive := b }
          target path L).1 =
        (refPass validator config target path L).1 ∧
      (refPass validator { config with case_insensitive := b }
          target path L).2.2.2 =
        (refPass validator config target path L).2.2.2)
    (fun target path key ref_val =>
      (refStep validator { config with case_insensitive := b }
          target path key ref_val).1 =
        (refStep validator config target path key ref_val).1 ∧
      (refStep validator { config with case_insensitive := b }
          target path key ref_val).2.2.2 =
        (refStep validator config target path key ref_val).2.2.2)
    ?_ ?_ ?_ ?_ ?_ ?_ ?_ ?_ ?_ ?_ ?_ ?_ ?_ ?_ ?_
  · intro reference target path msg hg
    have hg' : schemaGate validator { config with case_insensitive := b }
        reference target path = some msg :=
      (schemaGate_case_flag validator config b reference target path).trans hg
    simp [compare_json, hg, hg']
  · intro reference target path hg ih
    have hg' : schemaGate validator { config with case_insensitive := b }
        reference target path = none :=
      (schemaGate_case_flag validator config b reference target path).trans hg
    simp only [compare_json, hg, hg']
    exact ⟨ih.1, by rw [additionalPass_case_flag, ih.2]⟩
  · intro target path
    simp [refPass]
  · intro target path key v rest hcont ih
    have hcont' : ({ config with case_insensitive := b } :
        ComparisonConfig).ignore_keys.contains key = true := hcont
    simp only [refPass, hcont, hcont', if_true]
    exact ih
  · intro target path key v rest hcont cp j hrule hpy ih
    have hrule' : List.lookup (path ++ [key]) config.custom_rules =
      some (Rule.jval j) := hrule
    simp only [refPass, hcont, hrule', hpy, Bool.false_eq_true, if_false,
      if_true]
    exact ih
  · intro target path key v rest hcont cp j hrule hpy ih ih3
    have hrule' : List.lookup (path ++ [key]) config.custom_rules =
      some (Rule.jval j) := hrule
    simp only [refPass, hcont, hrule', hpy, Bool.false_eq_true, if_false]
    exact ⟨by rw [ih3.1, ih.1], by rw [ih3.2, ih.2]⟩
  · intro target path key v rest hcont cp f hrule tv hfv ih
    have hrule' : List.lookup (path ++ [key]) config.custom_rules =
      some (Rule.fn f) := hrule
    have hfv' : f v ((List.lookup key target).getD Json.null) = true := hfv
    simp only [refPass, hcont, hrule', hfv', Bool.false_eq_true, if_false,
      if_true]
    exact ih
  · intro target path key v rest hcont cp f hrule tv hfv ih
    have hrule' : List.lookup (path ++ [key]) config.custom_rules =
      some (Rule.fn f) := hrule
    have hfv' : ¬(f v ((List.lookup key target).getD Json.null) = true) := hfv
    simp only [refPass, hcont, hrule', hfv', Bool.false_eq_true, if_false]
    exact ih
  · intro target path key v rest hcont cp hrule ih ih3
    have hrule' : List.lookup (path ++ [key]) config.custom_rules = none := hrule
    simp only [refPass, hcont, hrule', Bool.false_eq_true, if_false]
    exact ⟨by rw [ih3.1, ih.1], by rw [ih3.2, ih.2]⟩
  · intro target path key ref_val hlook
    constructor <;> simp [refStep, hlook]
  · intro target path key cp rkvs tkvs hlook ih
    simp only [refStep, hlook]
    exact ih
  · intro target path key r1 t1 hcmp hlook
    constructor <;>
      (simp only [refStep, hlook]
       first
         | rfl
         | (split <;> rfl))
  · intro target path key r1 t1 hcmp hlook
    constructor <;>
      (simp only [refStep, hlook]
       first
         | rfl
         | (split <;> rfl))
  · intro target path key rv tv hno hna hcv hlook
    constructor <;>
      (cases rv <;> cases tv <;>
        first
          | exact (hno _ _ rfl rfl).elim
          | exact (hna _ _ rfl rfl).elim
          | (simp only [refStep, hlook]
             first
               | rfl
               | (split <;> rfl)))
  · intro target path key rv tv hno hna hcv hlook
    constructor <;>
      (cases rv <;> cases tv <;>
        first
          | exact (hno _ _ rfl rfl).elim
          | exact (hna _ _ rfl rfl).elim
          | (simp only [refStep, hlook]
             first
               | rfl
               | (split <;> rfl)))

/-- C10: key matching is case-sensitive regardless of configuration:
for every reference, target, and pair of configs differing only in the
`case_insensitive` flag, `compare` produces identical `missing` (first
component) and `additional` (fourth component) maps — the flag can only
move present keys between `common` and `differences`. -/
theorem case_flag_preserves_missing_additional
    (validator : Json → Json → Option String) (config : ComparisonConfig)
    (b : Bool) (reference target : JObj) :
    (compare_json validator { config with case_insensitive := b }
        reference target []).1 =
      (compare_json validator config reference target []).1 ∧
    (compare_json validator { config with case_insensitive := b }
        reference target []).2.2.2 =
      (compare_json validator config reference target []).2.2.2 :=
  (case_flag_invariance validator config b).1 reference target []

/-- Splitting one step off the leaf-path computation. -/
theorem leafPaths_cons (path : PathKey) (key : String) (v : Json)
    (rest : JObj) :
    leafPaths path ((key, v) :: rest) =
      leafPaths path [(key, v)] ++ leafPaths path rest := by
  cases v <;> simp [leafPaths]

/-- Comparing a well-formed dict tree against itself with the default
configuration records nothing but the leaf paths in `common`: the
additional pass finds no new keys, objects recurse, and every array and
scalar is equivalent to itself at tolerance 0. -/
theorem identity_master (validator : Json → Json → Option String) :
    (∀ (reference target : JObj) (path : PathKey),
      (reference.map Prod.fst).Nodup → wfObjVals reference = true →
      target = reference →
      compare_json validator default_config reference target path =
        ([], leafPaths path reference, [], [])) ∧
    (∀ (target : JObj) (path : PathKey) (L : JObj),
      (∀ kv ∈ L, List.lookup kv.1 target = some kv.2 ∧ wfKeys kv.2 = true) →
      refPass validator default_config target path L =
        ([], leafPaths path L, [], [])) ∧
    (∀ (target : JObj) (path : PathKey) (key : String) (ref_val : Json),
      List.lookup key target = some ref_val → wfKeys ref_val = true →
      refStep validator default_config target path key ref_val =
        ([], leafPaths path [(key, ref_val)], [], [])) := by
  refine compare_json.mutual_induct validator default_config
    (fun reference target path =>
      (reference.map Prod.fst).Nodup → wfObjVals reference = true →
      target = reference →
      compare_json validator default_config reference target path =
        ([], leafPaths path reference, [], []))
    (fun target path L =>
      (∀ kv ∈ L, List.lookup kv.1 target = some kv.2 ∧ wfKeys kv.2 = true) →
      refPass validator default_config target path L =
        ([], leafPaths path L, [], []))
    (fun target path key ref_val =>
      List.lookup key target = some ref_val → wfKeys ref_val = true →
      refStep validator default_config target path key ref_val =
        ([], leafPaths path [(key, ref_val)], [], []))
    ?_ ?_ ?_ ?_ ?_ ?_ ?_ ?_ ?_ ?_ ?_ ?_ ?_ ?_ ?_
  · intro reference target path msg hg
    simp [schemaGate, default_config, ComparisonConfig.init] at hg
  · intro reference target path hg ih hnd hwf htgt
    subst htgt
    have hpass := ih (fun kv hkv =>
      ⟨lookup_of_mem_nodup target hnd hkv, wfObjVals_mem target hwf kv hkv⟩)
    have hadd : additionalPass target default_config path target = [] :=
      additionalPass_sub target (fun kv hkv =>
        lookup_isSome_of_mem_keys target kv.1 (List.mem_map.mpr ⟨kv, hkv, rfl⟩))
    simp [compare_json, hg, hpass, hadd]
  · intro target path _
    simp [refPass, leafPaths]
  · intro target path key v rest hcont ih
    simp [default_config, ComparisonConfig.init] at hcont
  · intro target path key v rest hcont cp j hrule hpy ih
    have hrule' : List.lookup (path ++ [key])
        default_config.custom_rules = some (Rule.jval j) := hrule
    simp [default_config, ComparisonConfig.init] at hrule'
  · intro target path key v rest hcont cp j hrule hpy ih ih3
    have hrule' : List.lookup (path ++ [key])
        default_config.custom_rules = some (Rule.jval j) := hrule
    simp [default_config, ComparisonConfig.init] at hrule'
  · intro target path key v rest hcont cp f hrule tv hfv ih
    have hrule' : List.lookup (path ++ [key])
        default_config.custom_rules = some (Rule.fn f) := hrule
    simp [default_config, ComparisonConfig.init] at hrule'
  · intro target path key v rest hcont cp f hrule tv hfv ih
    have hrule' : List.lookup (path ++ [key])
        default_config.custom_rules = some (Rule.fn f) := hrule
    simp [default_config, ComparisonConfig.init] at hrule'
  · intro target path key v rest hcont cp hrule ih ih3 hyp
    have hhead := hyp (key, v) (List.mem_cons_self _ _)
    have hstep := ih3 hhead.1 hhead.2
    have htail := ih (fun kv hkv => hyp kv (List.mem_cons_of_mem _ hkv))
    have hrule' : List.lookup (path ++ [key])
        default_config.custom_rules = none := hrule
    simp only [refPass, hcont, hrule', Bool.false_eq_true, if_false,
      hstep, htail, leafPaths_cons path key v rest]
    simp
  · intro target path key ref_val hlook hlk hwf
    rw [hlook] at hlk
    exact absurd hlk (by simp)
  · intro target path key cp rkvs tkvs hlook ih hlk hwf
    have htk : tkvs = rkvs := by
      rw [hlook] at hlk
      injection hlk with h'
      injection h' with h
    subst htk
    rw [wfKeys] at hwf
    obtain ⟨h1, h2⟩ := Bool.and_eq_true_iff.mp hwf
    have hrec := ih (of_decide_eq_true h1) h2 rfl
    simp [refStep, hlook, hrec, leafPaths]
  · intro target path key r1 t1 hcmp hlook hlk hwf
    have ht1 : t1 = r1 := by
      rw [hlook] at hlk
      injection hlk with h'
      injection h' with h
    subst ht1
    simp [refStep, hlook, hcmp, leafPaths]
  · intro target path key r1 t1 hcmp hlook hlk hwf
    have ht1 : t1 = r1 := by
      rw [hlook] at hlk
      injection hlk with h'
      injection h' with h
    subst ht1
    exact absurd (compare_arrays_refl default_config
      (by norm_num [default_config, ComparisonConfig.init]) t1) hcmp
  · intro target path key rv tv hno hna hcv hlook hlk hwf
    have htv : tv = rv := by
      rw [hlook] at hlk
      injection hlk with h'
    subst htv
    cases tv with
    | obj rkvs => exact (hno rkvs rkvs rfl rfl).elim
    | arr r1 => exact (hna r1 r1 rfl rfl).elim
    | null => simp [refStep, hlook, hcv, leafPaths]
    | bool b => simp [refStep, hlook, hcv, leafPaths]
    | num q => simp [refStep, hlook, hcv, leafPaths]
    | str s => simp [refStep, hlook, hcv, leafPaths]
  · intro target path key rv tv hno hna hcv hlook hlk hwf
    have htv : tv = rv := by
      rw [hlook] at hlk
      injection hlk with h'
    subst htv
    exact absurd (compare_values_refl default_config
      (by norm_num [default_config, ComparisonConfig.init]) tv) hcv

/-- C7: comparing a well-formed document against itself under the
default configuration yields empty `missing`, `differences` and
`additional` maps, and a `common` map holding exactly the leaf paths of
the document (every path to a non-object value; objects are recursed
into). -/
theorem identity_comparison (validator : Json → Json → Option String)
    (X : JObj) (h : wfKeys (Json.obj X) = true) :
    compare_json validator default_config X X [] =
      ([], leafPaths [] X, [], []) := by
  rw [wfKeys] at h
  obtain ⟨h1, h2⟩ := Bool.and_eq_true_iff.mp h
  exact (identity_master validator).1 X X [] (of_decide_eq_true h1) h2 rfl

/-- C7 (witness): `identity_comparison` on a concrete document with a
scalar, a nested object and an array: `common` lists exactly the leaf
paths `a`, `b.c` and `l`, and the other maps are empty. -/
theorem identity_comparison_witness :
    compare_json okValidator default_config
      [("a", Json.num 1), ("b", Json.obj [("c", Json.str "x")]),
       ("l", Json.arr [Json.num 1, Json.bool true])]
      [("a", Json.num 1), ("b", Json.obj [("c", Json.str "x")]),
       ("l", Json.arr [Json.num 1, Json.bool true])] [] =
      ([], [(["a"], Json.num 1), (["b", "c"], Json.str "x"),
        (["l"], Json.arr [Json.num 1, Json.bool true])], [], []) :=
  (identity_comparison okValidator
    [("a", Json.num 1), ("b", Json.obj [("c", Json.str "x")]),
     ("l", Json.arr [Json.num 1, Json.bool true])] (by decide)).trans
    (by simp [leafPaths])
